import Mathlib

/-!
# Verification of the Balas branch-and-bound BIP solver

A shallow embedding of the core of the `balas` crate: the iterative
subtree state machine (`solve_subtree` in `src/lib.rs`), the recursive
reference solver (`node` / `solve_recursively` in
`src/recursive_solver.rs`), the cumulative-bound precomputation
(`make_cumulative`) and the prefix replay (`init_subtree`), together
with the solver handle (`Balas`) and its public operations.

Numbers are modelled by `ℤ`; the sentinel `T::max_value()` (read as
"positive infinity" by the program) is modelled by `⊤` in `WithTop ℤ`,
which is the value domain of the incumbent `best` and of the shared
cell `best_global`.  Machine integers and `f64` both realise the same
ordered-additive reasoning the program relies on, so `ℤ` with an
adjoined top is the faithful common abstraction.

The lock-protected shared cell is modelled for the single-threaded
deployments: a `try_read`/`try_write` that always succeeds, i.e. a
plain state component `gb` threaded through the machine.  The
multi-threaded dispatcher `solve_mt` is additionally modelled at one
admissible schedule (first worker runs to completion, then the
second), which suffices to exhibit behaviours of the parallel engine
that are independent of the interleaving.
-/

namespace BalasSpec

/-! ## Data model -/

/-- The `NodeState` enum of `src/lib.rs` (used only by the recording buffer). -/
inductive NodeState where
  | Default
  | Active
  | Visited
  | Fathomed
  | Infeasible
  | Suboptimal
  | ImpossibleChildren
  | Skipped
deriving DecidableEq

/-- The `Record` struct of `src/lib.rs`. -/
structure Record where
  node : String
  state : NodeState
deriving DecidableEq

/-- Positive part, as used by `make_cumulative` (`if *val > T::zero()`). -/
def posPart (x : ℤ) : ℤ := if 0 < x then x else 0

/-- Elementwise `running_total[i] += max(0, row[i])` of `make_cumulative`. -/
def addPos (rt row : List ℤ) : List ℤ :=
  List.zipWith (fun a b => a + posPart b) rt row

/-- The loop of `make_cumulative`: fold the reversed tail rows, pushing a
snapshot of the running total after each row. -/
def mkCumAux : List ℤ → List (List ℤ) → List (List ℤ)
  | _, [] => []
  | rt, row :: rest =>
    let rt2 := addPos rt row
    rt2 :: mkCumAux rt2 rest

/-- `Balas::make_cumulative` of `src/lib.rs` (lines 265-280): suffix sums of
positive constraint contributions, rows `1..n` processed in reverse, then the
collected snapshots reversed. -/
def make_cumulative (constraints : List (List ℤ)) : List (List ℤ) :=
  let num_cols := (constraints.headD []).length
  (mkCumAux (List.replicate num_cols 0) (constraints.drop 1).reverse).reverse

/-- The `Fixed` struct of `src/lib.rs`: the immutable problem data. -/
structure Fixed where
  num_vars : ℕ
  coefficients : List ℤ
  constraints : List (List ℤ)
  rhs : List ℤ
  cumulative : List (List ℤ)
deriving DecidableEq

/-- The `Balas` solver handle of `src/lib.rs`. -/
structure Balas where
  best : WithTop ℤ
  solution : List ℕ
  count : ℕ
  vars : List String
  recording : List Record
  fixed : Fixed
deriving DecidableEq

/-- `Balas::new`: stores the problem data and the precomputed cumulative
bounds; `best` starts at `T::max_value()` (modelled `⊤`). -/
def Balas.new (coeff : List ℤ) (constraints : List (List ℤ)) (b : List ℤ)
    (vars : List String) : Balas :=
  { best := ⊤
    solution := []
    count := 0
    vars := vars
    recording := []
    fixed :=
      { num_vars := coeff.length
        coefficients := coeff
        constraints := constraints
        rhs := b
        cumulative := make_cumulative constraints } }

/-- `Balas::reset` (lines 63-67): clears `count`, `best`, `solution`. -/
def Balas.reset (b : Balas) : Balas :=
  { b with count := 0, best := ⊤, solution := [] }

/-! ## The iterative subtree machine (`solve_subtree`) -/

/-- The `Flow` enum of `src/lib.rs`. -/
inductive Flow where
  | Terminate
  | Backtrack
  | Normal
deriving DecidableEq

/-- Elementwise `accumulator += constraints` (`iter_mut().zip(..)`). -/
def addRow (a r : List ℤ) : List ℤ := List.zipWith (fun x y => x + y) a r

/-- Elementwise `accumulator -= constraints`. -/
def subRow (a r : List ℤ) : List ℤ := List.zipWith (fun x y => x - y) a r

/-- The mutable state of one `solve_subtree` worker, together with the shared
cell `gb` (`best_global`), which in the single-threaded deployment is just
another state component (every `try_read`/`try_write` succeeds). -/
structure SubState where
  vars : List ℕ
  var_index : ℕ
  flow : Flow
  count : ℕ
  best : WithTop ℤ
  solution : List ℕ
  accumulator : List ℤ
  objective : ℤ
  branch : ℕ
  gb : WithTop ℤ
deriving DecidableEq

/-- The descent test at the bottom of the `Normal` arm (lines 224-237):
descend iff a cumulative row exists and `accumulator[c] + cumulative[c] ≥ 0`
for every `c`. -/
def descendTest (fixed : Fixed) (s : SubState) : SubState :=
  match fixed.cumulative[s.var_index]? with
  | some ccons =>
    if (List.zipWith (fun a b => a + b) s.accumulator ccons).all
        (fun x => decide (0 ≤ x)) then
      { s with var_index := s.var_index + 1, branch := 0 }
    else { s with flow := Flow.Backtrack }
  | none => { s with flow := Flow.Backtrack }

/-- The fathom test of the one-branch (lines 208-218) followed by the descent
test: expects a state whose `vars`/`accumulator`/`objective`/`best`/`count`
have already been updated for the one-branch entry. -/
def fathomDescend (fixed : Fixed) (s : SubState) : SubState :=
  if s.accumulator.all (fun x => decide (0 ≤ x)) then
    { s with best := (s.objective : WithTop ℤ), gb := (s.objective : WithTop ℤ),
             solution := s.vars, flow := Flow.Backtrack }
  else descendTest fixed s

/-- One iteration of the `loop` of `solve_subtree` (lines 150-240).
`Terminate` is a fixpoint (the Rust `break`). The bound test mirrors the
short-circuit `&&`: the `try_read` refresh of `best` from the shared cell
happens only when `objective >= best`, and in this single-threaded model the
`try_read` always succeeds. -/
def stepSub (fixed : Fixed) (start_var_index : ℕ) (s : SubState) : SubState :=
  let constraints := fixed.constraints.getD s.var_index []
  let coefficient := fixed.coefficients.getD s.var_index 0
  match s.flow with
  | Flow.Terminate => s
  | Flow.Backtrack =>
    if s.vars.getD s.var_index 0 = 1 then
      if s.var_index = start_var_index then { s with flow := Flow.Terminate }
      else
        { s with accumulator := subRow s.accumulator constraints
                 objective := s.objective - coefficient
                 vars := s.vars.set s.var_index 0
                 var_index := s.var_index - 1 }
    else { s with flow := Flow.Normal, branch := 1 }
  | Flow.Normal =>
    let count := s.count + 1
    if s.branch = 1 then
      let vars := s.vars.set s.var_index 1
      let accumulator := addRow s.accumulator constraints
      let objective := s.objective + coefficient
      if s.best ≤ (objective : WithTop ℤ) then
        -- first conjunct of the bound test holds: try-read refreshes `best`
        let best := s.gb
        if best ≤ (objective : WithTop ℤ) then
          { s with count, vars, accumulator, objective, best,
                   flow := Flow.Backtrack }
        else
          fathomDescend fixed { s with count, vars, accumulator, objective, best }
      else
        fathomDescend fixed { s with count, vars, accumulator, objective }
    else
      descendTest fixed { s with count }

/-- Iterate the loop body a given number of times (fuel-indexed run of the
`loop`; reaching `Terminate` freezes the state, so any sufficiently large
fuel computes the loop's exit state). -/
def runSub (fixed : Fixed) (start_var_index : ℕ) : ℕ → SubState → SubState
  | 0, s => s
  | n + 1, s => runSub fixed start_var_index n (stepSub fixed start_var_index s)

/-- `Balas::init_subtree` (lines 107-130): replay the ancestor branches
selected by `tree_index` into the accumulator and the objective. -/
def init_subtree (start_var_index tree_index : ℕ) (fixed : Fixed) :
    List ℤ × ℤ :=
  (List.range start_var_index).foldl
    (fun st var_index =>
      let branch := tree_index >>> (start_var_index - var_index - 1) &&& 1
      let constraints := fixed.constraints.getD var_index []
      let coefficient := fixed.coefficients.getD var_index 0
      if branch = 1 then (addRow st.1 constraints, st.2 + coefficient) else st)
    (fixed.rhs.map (fun b => -b), 0)

/-- The state of a `solve_subtree` worker right before its first loop
iteration: fresh `vars`, `best` read from the shared cell. -/
def initState (fixed : Fixed) (start_var_index tree_index : ℕ)
    (gb0 : WithTop ℤ) : SubState :=
  { vars := List.replicate fixed.num_vars 0
    var_index := start_var_index
    flow := Flow.Normal
    count := 0
    best := gb0
    solution := []
    accumulator := (init_subtree start_var_index tree_index fixed).1
    objective := (init_subtree start_var_index tree_index fixed).2
    branch := 0
    gb := gb0 }

/-- `Balas::solve_subtree` run with the given fuel: returns
`(best, count, solution)`. -/
def solve_subtree (fixed : Fixed) (fuel start_var_index tree_index : ℕ)
    (gb0 : WithTop ℤ) : WithTop ℤ × ℕ × List ℕ :=
  let s := runSub fixed start_var_index fuel
    (initState fixed start_var_index tree_index gb0)
  (s.best, s.count, s.solution)

/-- `Balas::solve` (lines 70-77), the single-threaded solver: the shared cell
is created holding `T::max_value()` (the caller's `best` field is not
consulted), and the root subtree `(0, 0)` is solved. -/
def Balas.solve (fuel : ℕ) (b : Balas) : Balas :=
  let r := solve_subtree b.fixed fuel 0 0 ⊤
  { b with best := r.1, count := r.2.1, solution := r.2.2 }

/-- `Balas::solve_mt` (lines 80-105) with two workers, modelled at the
sequential schedule in which the first spawned worker `(1, 0)` runs to
completion before the second worker `(1, 1)` starts (one admissible
interleaving of the two threads; the shared cell is handed from the first
run to the second). The reduction keeps the smaller `best`, preferring the
first worker on ties. -/
def Balas.solve_mt_seq (fuel : ℕ) (b : Balas) : Balas :=
  let s1 := runSub b.fixed 1 fuel (initState b.fixed 1 0 ⊤)
  let s2 := runSub b.fixed 1 fuel (initState b.fixed 1 1 s1.gb)
  if s1.best ≤ s2.best then
    { b with best := s1.best, solution := s1.solution, count := s1.count + s2.count }
  else
    { b with best := s2.best, solution := s2.solution, count := s1.count + s2.count }

/-! ## The recursive reference solver (`src/recursive_solver.rs`) -/

/-- The fields of the handle mutated by `Balas::node`. -/
structure RAcc where
  best : WithTop ℤ
  solution : List ℕ
  count : ℕ
deriving DecidableEq

/-- `Balas::node` (`src/recursive_solver.rs`, lines 36-116): one node of the
call-stack recursion, threading the mutable `best`/`solution`/`count`. -/
def nodeRec (fixed : Fixed) (branch index : ℕ) (accumulator : List ℤ)
    (objective : ℤ) (vars : List ℕ) (st : RAcc) : RAcc :=
    let st1 : RAcc := { st with count := st.count + 1 }
    if branch = 1 then
      let vars := vars.set index 1
      let cons := fixed.constraints.getD index []
      let objective := objective + fixed.coefficients.getD index 0
      if st1.best ≤ (objective : WithTop ℤ) then st1
      else
        let accumulator := addRow accumulator cons
        if accumulator.all (fun a => decide (0 ≤ a)) then
          { st1 with best := (objective : WithTop ℤ), solution := vars }
        else
          match h : fixed.cumulative[index]? with
          | none => st1
          | some ccons =>
            if (List.zipWith (fun a b => a + b) accumulator ccons).all
                (fun a => decide (0 ≤ a)) then
              nodeRec fixed 1 (index + 1) accumulator objective vars
                (nodeRec fixed 0 (index + 1) accumulator objective vars st1)
            else st1
    else
      match h : fixed.cumulative[index]? with
      | none => st1
      | some ccons =>
        if (List.zipWith (fun a b => a + b) accumulator ccons).all
            (fun a => decide (0 ≤ a)) then
          nodeRec fixed 1 (index + 1) accumulator objective vars
            (nodeRec fixed 0 (index + 1) accumulator objective vars st1)
        else st1
termination_by fixed.cumulative.length - index
decreasing_by
  all_goals
    have hlt : index < fixed.cumulative.length := by
      have := List.getElem?_eq_some.mp h
      exact this.1
    omega

/-- `Balas::record`. -/
def Balas.record (b : Balas) (label : String) (state : NodeState) : Balas :=
  { b with recording := b.recording ++ [{ node := label, state := state }] }

/-- `Balas::solve_recursively` (lines 19-34): the accumulator starts at
`-rhs`, `vars` fresh, and the two root children are explored in order,
threading the handle's current `best`/`solution`/`count`. -/
def Balas.solve_recursively (b : Balas) : Balas :=
  let accumulator := b.fixed.rhs.map (fun a => -a)
  let num_vars := b.fixed.coefficients.length
  let vars := List.replicate num_vars (0 : ℕ)
  let b1 := (b.record "" NodeState.Active).record "" NodeState.Visited
  let st0 : RAcc := { best := b1.best, solution := b1.solution, count := b1.count }
  let st1 := nodeRec b1.fixed 0 0 accumulator 0 vars st0
  let st2 := nodeRec b1.fixed 1 0 accumulator 0 vars st1
  { b1 with best := st2.best, solution := st2.solution, count := st2.count }

/-! ## Problem semantics -/

/-- `constraints[v][c]`: contribution of variable `v` to constraint row `c`. -/
def colEntry (fixed : Fixed) (v c : ℕ) : ℤ :=
  (fixed.constraints.getD v []).getD c 0

/-- `Σ_v constraints[v][c] · x[v]`, the left-hand side of constraint `c`. -/
def lhsSum (fixed : Fixed) (x : List ℕ) (c : ℕ) : ℤ :=
  ∑ v ∈ Finset.range fixed.num_vars, colEntry fixed v c * (x.getD v 0 : ℤ)

/-- `Σ_v coefficients[v] · x[v]`, the objective of an assignment. -/
def objVal (fixed : Fixed) (x : List ℕ) : ℤ :=
  ∑ v ∈ Finset.range fixed.num_vars,
    fixed.coefficients.getD v 0 * (x.getD v 0 : ℤ)

/-- An assignment satisfies every constraint row. -/
def feasible (fixed : Fixed) (x : List ℕ) : Prop :=
  ∀ c < fixed.rhs.length, fixed.rhs.getD c 0 ≤ lhsSum fixed x c

instance (fixed : Fixed) (x : List ℕ) : Decidable (feasible fixed x) :=
  Nat.decidableBallLT _ _

/-- A zero/one vector of the given length. -/
def binVec (n : ℕ) (x : List ℕ) : Prop :=
  x.length = n ∧ ∀ i < n, x.getD i 0 ≤ 1

instance (n : ℕ) (x : List ℕ) : Decidable (binVec n x) := by
  unfold binVec; infer_instance

/-- All zero/one vectors of a given length. -/
def allVecs : ℕ → List (List ℕ)
  | 0 => [[]]
  | n + 1 => (allVecs n).flatMap (fun v => [0 :: v, 1 :: v])

/-- Dimension coherence of a `Fixed` as produced by construction from a
normalized problem: one constraint row per variable, all rows as long as
`rhs`, the cumulative matrix as precomputed, and at least one variable. -/
def sizedFixed (fixed : Fixed) : Prop :=
  fixed.num_vars = fixed.coefficients.length ∧
  fixed.constraints.length = fixed.num_vars ∧
  (∀ row ∈ fixed.constraints, row.length = fixed.rhs.length) ∧
  fixed.cumulative = make_cumulative fixed.constraints ∧
  1 ≤ fixed.num_vars

instance (fixed : Fixed) : Decidable (sizedFixed fixed) := by
  unfold sizedFixed; infer_instance

/-- Invariant tying the incumbent of a solver run to its stored solution:
an incumbent below the sentinel is witnessed by a stored zero/one vector of
full length that is feasible, contains a one, and achieves the incumbent;
while the incumbent still sits at the sentinel the solution vector is empty. -/
def STinv (fixed : Fixed) (st : RAcc) : Prop :=
  (st.best = ⊤ → st.solution = []) ∧
  (st.best ≠ ⊤ →
    binVec fixed.num_vars st.solution ∧ 1 ∈ st.solution ∧
    feasible fixed st.solution ∧ (objVal fixed st.solution : WithTop ℤ) = st.best)

/-- The result of exploring both children of depth `d` in order (zero branch
then one branch), as the recursive reference solver does. -/
def pairResult (fixed : Fixed) (d : ℕ) (acc : List ℤ) (obj : ℤ)
    (vars : List ℕ) (st : RAcc) : RAcc :=
  nodeRec fixed 1 d acc obj vars (nodeRec fixed 0 d acc obj vars st)

/-- Simulation statement for the one-branch: started at `Normal` with
`branch = 1` on a depth-`d` node whose deeper variables are clear and whose
incumbent agrees with the shared cell, the machine runs (in some number of
steps) to the `Backtrack` state at depth `d` whose incumbent, solution and
count are exactly those produced by the recursive `node` call with
`branch = 1`, with the accumulator and objective still carrying the
one-branch update (the parent's backtrack undoes them). -/
def oneSimStmt (fixed : Fixed) (fuel : ℕ) : Prop :=
  ∀ (d k : ℕ) (vars : List ℕ) (acc : List ℤ) (obj : ℤ) (B : WithTop ℤ)
    (sol : List ℕ) (count : ℕ),
  fixed.cumulative.length ≤ d + fuel →
  k ≤ d → d < fixed.num_vars → vars.length = fixed.num_vars →
  (∀ i, d ≤ i → vars.getD i 0 = 0) →
  acc.length = fixed.rhs.length →
  ∃ t, runSub fixed k t ⟨vars, d, Flow.Normal, count, B, sol, acc, obj, 1, B⟩
    = ⟨vars.set d 1, d, Flow.Backtrack,
        (nodeRec fixed 1 d acc obj vars ⟨B, sol, count⟩).count,
        (nodeRec fixed 1 d acc obj vars ⟨B, sol, count⟩).best,
        (nodeRec fixed 1 d acc obj vars ⟨B, sol, count⟩).solution,
        addRow acc (fixed.constraints.getD d []),
        obj + fixed.coefficients.getD d 0, 1,
        (nodeRec fixed 1 d acc obj vars ⟨B, sol, count⟩).best⟩

/-- Simulation statement for a full node pair: started at `Normal` with
`branch = 0` on a depth-`d` node, the machine explores the zero branch and
then the one branch and ends in the `Backtrack` state at depth `d` carrying
exactly the results of the two recursive `node` calls in order. -/
def pairSimStmt (fixed : Fixed) (fuel : ℕ) : Prop :=
  ∀ (d k : ℕ) (vars : List ℕ) (acc : List ℤ) (obj : ℤ) (B : WithTop ℤ)
    (sol : List ℕ) (count : ℕ),
  fixed.cumulative.length ≤ d + fuel →
  k ≤ d → d < fixed.num_vars → vars.length = fixed.num_vars →
  (∀ i, d ≤ i → vars.getD i 0 = 0) →
  acc.length = fixed.rhs.length →
  ∃ t, runSub fixed k t ⟨vars, d, Flow.Normal, count, B, sol, acc, obj, 0, B⟩
    = ⟨vars.set d 1, d, Flow.Backtrack,
        (pairResult fixed d acc obj vars ⟨B, sol, count⟩).count,
        (pairResult fixed d acc obj vars ⟨B, sol, count⟩).best,
        (pairResult fixed d acc obj vars ⟨B, sol, count⟩).solution,
        addRow acc (fixed.constraints.getD d []),
        obj + fixed.coefficients.getD d 0, 1,
        (pairResult fixed d acc obj vars ⟨B, sol, count⟩).best⟩

/-- Modelled from the spec: §4.4 specifies that `solve` initializes
`best_global` from a caller-supplied `best` seed when one was written before
the call ("If the caller provided a heuristic upper bound (a user-supplied
`best` seed), initialize `best_global` to that value; otherwise to positive
infinity").  The code's `solve` (src/lib.rs lines 70-77) instead always
passes `T::max_value()`; this definition exists to compare the two. -/
def Balas.solve_seeded_spec (fuel : ℕ) (b : Balas) : Balas :=
  let r := solve_subtree b.fixed fuel 0 0 b.best
  { b with best := r.1, count := r.2.1, solution := r.2.2 }

/-- Modelled from the spec: the claimed least-significant-first prefix
decoding of `init_subtree` ("bit `i` of `p` is the assigned branch at depth
`i`; bit ordering is least-significant-first per variable index, i.e. bit 0
= depth 0").  Identical to `init_subtree` except that depth `var_index`
reads bit `var_index` of `tree_index`. -/
def init_subtree_lsb (start_var_index tree_index : ℕ) (fixed : Fixed) :
    List ℤ × ℤ :=
  (List.range start_var_index).foldl
    (fun st var_index =>
      let branch := tree_index >>> var_index &&& 1
      let constraints := fixed.constraints.getD var_index []
      let coefficient := fixed.coefficients.getD var_index 0
      if branch = 1 then (addRow st.1 constraints, st.2 + coefficient) else st)
    (fixed.rhs.map (fun b => -b), 0)

/-! ## Concrete problem instances (scenarios of the spec and counterexamples) -/

/-- Scenario C of the spec: `n=2`, `m=1`, `coefficients=[1,1]`,
`constraints=[[0],[0]]`, `rhs=[0]`. -/
def scenarioC : Balas := Balas.new [1, 1] [[0], [0]] [0] ["x0", "x1"]

/-- Scenario B of the spec: `n=1`, `m=1`, `coefficients=[1]`,
`constraints=[[1]]`, `rhs=[2]`. -/
def scenarioB : Balas := Balas.new [1] [[1]] [2] ["x0"]

/-- Scenario A of the spec: the reference problem from the source. -/
def scenarioA : Balas :=
  Balas.new [3, 5, 6, 9, 10, 10]
    [[-2, -5, 5], [6, -3, -1], [-3, 1, 4], [4, 3, -2], [1, -2, 2], [-2, 1, -1]]
    [2, -2, 3] ["x0", "x1", "x2", "x3", "x4", "x5"]

/-- A problem whose unique optimum has `x0 = 1`: `n=2`, `m=1`,
`coefficients=[1,1]`, `constraints=[[1],[0]]`, `rhs=[1]`.  The feasible
assignments are `[1,0]` and `[1,1]`, the optimum is `[1,0]` with value 1. -/
def mtExample : Balas := Balas.new [1, 1] [[1], [0]] [1] ["x0", "x1"]

/-- A two-variable problem with distinct coefficients, used to observe the
prefix decoding of `init_subtree`. -/
def bitFixed : Fixed := (Balas.new [1, 2] [[0], [0]] [0] ["x0", "x1"]).fixed

/-! ## List helper lemmas -/

theorem length_addRow (a r : List ℤ) :
    (addRow a r).length = min a.length r.length :=
  List.length_zipWith _ _ _

theorem length_subRow (a r : List ℤ) :
    (subRow a r).length = min a.length r.length :=
  List.length_zipWith _ _ _

theorem getD_addRow {a r : List ℤ} {c : ℕ} (hc : c < a.length)
    (hr : c < r.length) :
    (addRow a r).getD c 0 = a.getD c 0 + r.getD c 0 := by
  have hlen : c < (addRow a r).length := by
    rw [length_addRow]; omega
  rw [List.getD_eq_getElem _ _ hlen, List.getD_eq_getElem _ _ hc,
    List.getD_eq_getElem _ _ hr]
  exact List.getElem_zipWith (h := hlen)

theorem subRow_addRow {a r : List ℤ} (h : a.length = r.length) :
    subRow (addRow a r) r = a := by
  induction a generalizing r with
  | nil => simp [subRow, addRow]
  | cons x xs ih =>
    cases r with
    | nil => simp at h
    | cons y ys =>
      have h2 : xs.length = ys.length := by simpa using h
      simp only [addRow, subRow, List.zipWith_cons_cons]
      refine congrArg₂ List.cons (by ring) (ih h2)

theorem getD_set_self {l : List ℕ} {i v : ℕ} (h : i < l.length) :
    (l.set i v).getD i 0 = v := by
  rw [List.getD_eq_getElem?_getD, List.getElem?_set]
  simp [h]

theorem getD_set_ne {l : List ℕ} {i j v : ℕ} (h : i ≠ j) :
    (l.set i v).getD j 0 = l.getD j 0 := by
  rw [List.getD_eq_getElem?_getD, List.getElem?_set, if_neg h,
    ← List.getD_eq_getElem?_getD]

theorem set_of_getD_zero {l : List ℕ} {i : ℕ} (h : l.getD i 0 = 0) :
    l.set i 0 = l := by
  apply List.ext_getElem?
  intro n
  rw [List.getElem?_set]
  by_cases hin : i = n
  · subst hin
    by_cases hlt : i < l.length
    · rw [if_pos rfl, if_pos hlt, List.getElem?_eq_getElem hlt]
      rw [List.getD_eq_getElem _ _ hlt] at h
      rw [h]
    · rw [if_pos rfl, if_neg hlt]
      exact (List.getElem?_eq_none (by omega)).symm
  · rw [if_neg hin]

theorem getD_replicate_zero (n i : ℕ) :
    (List.replicate n (0 : ℕ)).getD i 0 = 0 := by
  by_cases h : i < n
  · rw [List.getD_eq_getElem _ _ (by simpa using h)]
    exact List.getElem_replicate _ _
  · exact List.getD_eq_default _ _ (by simpa using h)

theorem all_nonneg_iff (l : List ℤ) :
    (l.all fun x => decide (0 ≤ x)) = true ↔ ∀ c < l.length, 0 ≤ l.getD c 0 := by
  rw [List.all_eq_true]
  constructor
  · intro h c hc
    have := h _ (List.getElem_mem hc)
    rw [List.getD_eq_getElem _ _ hc]
    simpa using this
  · intro h x hx
    obtain ⟨c, hc, rfl⟩ := List.mem_iff_getElem.mp hx
    have := h c hc
    rw [List.getD_eq_getElem _ _ hc] at this
    simpa using this

/-! ## C10: `reset` restores `best`, `solution`, `count` and nothing else -/

/-- C10: `reset()` restores `best` to the numeric max value (`⊤`),
`solution` to the empty vector and `count` to zero, and leaves the problem
data, the variable names and the recording buffer unchanged. -/
theorem reset_frame (b : Balas) :
    b.reset.best = ⊤ ∧ b.reset.solution = [] ∧ b.reset.count = 0 ∧
    b.reset.fixed = b.fixed ∧ b.reset.vars = b.vars ∧
    b.reset.recording = b.recording :=
  ⟨rfl, rfl, rfl, rfl, rfl, rfl⟩

/-! ## The shared bound in the single-threaded engine and its missing guard -/

/-- Auxiliary: over any step of the subtree machine whose local cached
incumbent agrees with the shared cell — which holds throughout a
single-threaded run, where every `try_read`/`try_write` succeeds and no
other worker touches the cell — the shared cell never grows, the agreement
is preserved, and any actual change of the cell is a strict decrease.  The
concurrent engine does not share this property: a worker whose cache is
stale skips the refresh and overwrites the cell unconditionally, so the
cell can increase (exhibited separately on a concrete state). -/
theorem stepSub_gb_mono (fixed : Fixed) (k : ℕ) (s : SubState)
    (h : s.best = s.gb) :
    (stepSub fixed k s).gb ≤ s.gb ∧
    (stepSub fixed k s).best = (stepSub fixed k s).gb ∧
    ((stepSub fixed k s).gb ≠ s.gb → (stepSub fixed k s).gb < s.gb) := by
  have main : (stepSub fixed k s).gb ≤ s.gb ∧
      (stepSub fixed k s).best = (stepSub fixed k s).gb := by
    obtain ⟨vars, d, flow, count, best, sol, acc, obj, br, gb⟩ := s
    simp only at h
    subst h
    cases flow with
    | Terminate => simp [stepSub]
    | Backtrack =>
      simp only [stepSub]
      split
      · split <;> simp
      · simp
    | Normal =>
      simp only [stepSub, fathomDescend, descendTest]
      repeat' split
      all_goals
        try exact ⟨le_of_lt (lt_of_not_le (by assumption)), rfl⟩
      all_goals simp_all
  refine ⟨main.1, main.2, fun hne => lt_of_le_of_ne main.1 hne⟩

/-- C4: the claimed strictly-smaller publication guard is absent from the
code, and `best_global` is not monotonically nonincreasing in a concurrent
solve.  The fathom branch writes the worker's objective into the cell
unconditionally once `try_write` succeeds, and the refresh of the worker's
cached incumbent from the cell is short-circuited whenever the objective is
below the cache.  Concretely, on the problem `coefficients=[1,1]`,
`constraints=[[0],[0]]`, `rhs=[0]` run by `solve_mt`'s two workers: worker
`(1,0)` terminates having published 1 (first two conjuncts); worker `(1,1)`,
two steps after reading `best_global = ⊤` at entry, stands at its one-branch
entry with its cache still `⊤` (third conjunct); if worker `(1,0)`'s publish
lands in the cell at that point, worker `(1,1)`'s next step fathoms
objective 2 and overwrites the stored 1 — the cell strictly increases and
the published value is not strictly smaller than the one it replaces (last
two conjuncts). -/
theorem best_global_not_guarded :
    (runSub scenarioC.fixed 1 10 (initState scenarioC.fixed 1 0 ⊤)).flow
      = Flow.Terminate ∧
    (runSub scenarioC.fixed 1 10 (initState scenarioC.fixed 1 0 ⊤)).gb
      = ((1 : ℤ) : WithTop ℤ) ∧
    runSub scenarioC.fixed 1 2 (initState scenarioC.fixed 1 1 ⊤)
      = ⟨[0, 0], 1, Flow.Normal, 1, ⊤, [], [0], 1, 1, (⊤ : WithTop ℤ)⟩ ∧
    (stepSub scenarioC.fixed 1
      ⟨[0, 0], 1, Flow.Normal, 1, ⊤, [], [0], 1, 1, ((1 : ℤ) : WithTop ℤ)⟩).gb
      = ((2 : ℤ) : WithTop ℤ) ∧
    ((1 : ℤ) : WithTop ℤ) < (stepSub scenarioC.fixed 1
      ⟨[0, 0], 1, Flow.Normal, 1, ⊤, [], [0], 1, 1, ((1 : ℤ) : WithTop ℤ)⟩).gb := by
  refine ⟨by decide, by decide, by decide, by decide, by decide⟩

/-! ## C8: the cumulative-bound precomputation -/

theorem getD_addPos {rt row : List ℤ} {c : ℕ} (hc : c < rt.length)
    (hr : c < row.length) :
    (addPos rt row).getD c 0 = rt.getD c 0 + posPart (row.getD c 0) := by
  have hlen : c < (addPos rt row).length := by
    rw [addPos, List.length_zipWith]; omega
  rw [List.getD_eq_getElem _ _ hlen, List.getD_eq_getElem _ _ hc,
    List.getD_eq_getElem _ _ hr]
  exact List.getElem_zipWith (h := hlen)

theorem mkCumAux_length (rt : List ℤ) (rows : List (List ℤ)) :
    (mkCumAux rt rows).length = rows.length := by
  induction rows generalizing rt with
  | nil => rfl
  | cons row rest ih => simp [mkCumAux, ih]

theorem make_cumulative_length (constraints : List (List ℤ)) :
    (make_cumulative constraints).length = constraints.length - 1 := by
  simp [make_cumulative, mkCumAux_length]

theorem mkCumAux_spec (m : ℕ) (rows : List (List ℤ)) :
    ∀ rt : List ℤ, rt.length = m → (∀ row ∈ rows, row.length = m) →
    (∀ r ∈ mkCumAux rt rows, r.length = m) ∧
    ∀ j < rows.length, ∀ c < m,
      ((mkCumAux rt rows).getD j []).getD c 0
        = rt.getD c 0 + ∑ u ∈ Finset.range (j + 1),
            posPart ((rows.getD u []).getD c 0) := by
  induction rows with
  | nil => intro rt _ _; exact ⟨by simp [mkCumAux], by simp⟩
  | cons row rest ih =>
    intro rt hrt hrows
    have hrow : row.length = m := hrows _ (by simp)
    have hrt2 : (addPos rt row).length = m := by
      rw [addPos, List.length_zipWith]; omega
    have hrest : ∀ r ∈ rest, r.length = m := fun r hr => hrows r (by simp [hr])
    obtain ⟨ihlen, ihget⟩ := ih (addPos rt row) hrt2 hrest
    constructor
    · intro r hr
      rw [mkCumAux] at hr
      rcases List.mem_cons.mp hr with h | h
      · rw [h]; exact hrt2
      · exact ihlen r h
    · intro j hj c hc
      rw [mkCumAux]
      cases j with
      | zero =>
        rw [List.getD_cons_zero, getD_addPos (by omega) (by omega)]
        simp [List.getD_cons_zero]
      | succ j' =>
        rw [List.getD_cons_succ]
        have hj' : j' < rest.length := by simpa using hj
        rw [ihget j' hj' c hc, getD_addPos (by omega) (by omega)]
        conv_rhs => rw [Finset.sum_range_succ']
        simp only [List.getD_cons_succ, List.getD_cons_zero]
        ring

/-- C8: `make_cumulative` returns exactly `n-1` rows (row `n-1` absent), each
as long as a constraint row, with `cumulative[v][c] = Σ_{u > v} max(0,
constraints[u][c])`, and the rows satisfy the recurrence `cumulative[v][c] =
cumulative[v+1][c] + max(0, constraints[v+1][c])`. -/
theorem make_cumulative_spec (constraints : List (List ℤ)) (m : ℕ)
    (hrect : ∀ row ∈ constraints, row.length = m) (hne : constraints ≠ []) :
    (make_cumulative constraints).length = constraints.length - 1 ∧
    (∀ row ∈ make_cumulative constraints, row.length = m) ∧
    (∀ v, v < constraints.length - 1 → ∀ c < m,
      ((make_cumulative constraints).getD v []).getD c 0
        = ∑ u ∈ Finset.Ico (v + 1) constraints.length,
            posPart ((constraints.getD u []).getD c 0)) ∧
    (∀ v, v + 1 < constraints.length - 1 → ∀ c < m,
      ((make_cumulative constraints).getD v []).getD c 0
        = ((make_cumulative constraints).getD (v + 1) []).getD c 0
          + posPart ((constraints.getD (v + 1) []).getD c 0)) := by
  obtain ⟨row0, rest, rfl⟩ : ∃ r t, constraints = r :: t := by
    cases constraints with
    | nil => exact absurd rfl hne
    | cons a b => exact ⟨a, b, rfl⟩
  have hrow0 : row0.length = m := hrect row0 (by simp)
  have hmc : make_cumulative (row0 :: rest)
      = (mkCumAux (List.replicate m 0) rest.reverse).reverse := by
    rw [make_cumulative]
    simp only [List.headD_cons, List.drop_succ_cons, List.drop_zero, hrow0]
  have hrows : ∀ r ∈ rest.reverse, r.length = m := by
    intro r hr
    exact hrect r (List.mem_cons_of_mem _ (List.mem_reverse.mp hr))
  have hrt : (List.replicate m (0 : ℤ)).length = m := by simp
  obtain ⟨hlens, hgets⟩ := mkCumAux_spec m rest.reverse _ hrt hrows
  set L := rest.length with hL
  have hlenrows : rest.reverse.length = L := by simp
  have hmklen : (mkCumAux (List.replicate m 0) rest.reverse).length = L := by
    rw [mkCumAux_length]; exact hlenrows
  have hNL : (row0 :: rest).length = L + 1 := by simp [hL]
  have hformula : ∀ v, v < (row0 :: rest).length - 1 → ∀ c < m,
      ((make_cumulative (row0 :: rest)).getD v []).getD c 0
        = ∑ u ∈ Finset.Ico (v + 1) (row0 :: rest).length,
            posPart (((row0 :: rest).getD u []).getD c 0) := by
    intro v hv c hc
    have hvL : v < L := by omega
    have hrev : (make_cumulative (row0 :: rest)).getD v []
        = (mkCumAux (List.replicate m 0) rest.reverse).getD (L - 1 - v) [] := by
      rw [hmc]
      have h1 : v < (mkCumAux (List.replicate m 0) rest.reverse).reverse.length := by
        rw [List.length_reverse, hmklen]; omega
      rw [List.getD_eq_getElem _ _ h1, List.getElem_reverse,
        List.getD_eq_getElem _ _ (by rw [hmklen]; omega)]
      congr 1
      rw [hmklen]
    rw [hrev, hgets (L - 1 - v) (by omega) c hc]
    have hrt0 : (List.replicate m (0 : ℤ)).getD c 0 = 0 := by
      rw [List.getD_eq_getElem _ _ (by simpa using hc)]
      exact List.getElem_replicate _ _
    rw [hrt0, zero_add]
    -- position `u` of the reversed tail is row `L - 1 - u` of the tail
    have hrowget : ∀ u, u < L →
        rest.reverse.getD u [] = rest.getD (L - 1 - u) [] := by
      intro u hu
      have h2 : u < rest.reverse.length := by rw [hlenrows]; omega
      rw [List.getD_eq_getElem _ _ h2, List.getElem_reverse,
        List.getD_eq_getElem _ _ (by omega)]
    have hstep1 : ∑ u ∈ Finset.range (L - 1 - v + 1),
          posPart ((rest.reverse.getD u []).getD c 0)
        = ∑ u ∈ Finset.range (L - v), posPart ((rest.getD (L - 1 - u) []).getD c 0) := by
      have hk : L - 1 - v + 1 = L - v := by omega
      rw [hk]
      apply Finset.sum_congr rfl
      intro u hu
      rw [hrowget u (by have := Finset.mem_range.mp hu; omega)]
    rw [hstep1]
    have hstep2 : ∑ u ∈ Finset.Ico (v + 1) (row0 :: rest).length,
          posPart (((row0 :: rest).getD u []).getD c 0)
        = ∑ i ∈ Finset.range (L - v), posPart ((rest.getD (v + i) []).getD c 0) := by
      rw [Finset.sum_Ico_eq_sum_range]
      have hkk : (row0 :: rest).length - (v + 1) = L - v := by omega
      rw [hkk]
      apply Finset.sum_congr rfl
      intro i _
      have : (v + 1 + i) = (v + i) + 1 := by omega
      rw [this, List.getD_cons_succ]
    rw [hstep2]
    rw [← Finset.sum_range_reflect (fun i => posPart ((rest.getD (v + i) []).getD c 0))
      (L - v)]
    apply Finset.sum_congr rfl
    intro u hu
    have hu' := Finset.mem_range.mp hu
    have hidx : v + (L - v - 1 - u) = L - 1 - u := by omega
    rw [hidx]
  refine ⟨make_cumulative_length _, ?_, hformula, ?_⟩
  · intro row hrow
    rw [hmc] at hrow
    exact hlens row (List.mem_reverse.mp hrow)
  · intro v hv c hc
    rw [hformula v (by omega) c hc, hformula (v + 1) (by omega) c hc]
    rw [Finset.sum_eq_sum_Ico_succ_bot (by simp [hNL]; omega : v + 1 < (row0 :: rest).length)]
    ring

/-! ## C7: prefix-index decoding of `init_subtree` -/

theorem foldl_congr_mem {α β : Type} (l : List α) (f g : β → α → β) (b : β)
    (h : ∀ x ∈ l, ∀ acc, f acc x = g acc x) : l.foldl f b = l.foldl g b := by
  induction l generalizing b with
  | nil => rfl
  | cons x xs ih =>
    simp only [List.foldl_cons]
    rw [h x (by simp)]
    exact ih _ (fun y hy acc => h y (by simp [hy]) acc)

theorem init_subtree_succ (k p : ℕ) (fixed : Fixed) :
    init_subtree (k + 1) p fixed
      = (if p &&& 1 = 1 then
          (addRow (init_subtree k (p >>> 1) fixed).1 (fixed.constraints.getD k []),
           (init_subtree k (p >>> 1) fixed).2 + fixed.coefficients.getD k 0)
         else init_subtree k (p >>> 1) fixed) := by
  unfold init_subtree
  rw [List.range_succ, List.foldl_append]
  have hfold : (List.range k).foldl
      (fun st var_index =>
        let branch := p >>> (k + 1 - var_index - 1) &&& 1
        let constraints := fixed.constraints.getD var_index []
        let coefficient := fixed.coefficients.getD var_index 0
        if branch = 1 then (addRow st.1 constraints, st.2 + coefficient) else st)
      (fixed.rhs.map (fun b => -b), 0)
      = (List.range k).foldl
        (fun st var_index =>
          let branch := (p >>> 1) >>> (k - var_index - 1) &&& 1
          let constraints := fixed.constraints.getD var_index []
          let coefficient := fixed.coefficients.getD var_index 0
          if branch = 1 then (addRow st.1 constraints, st.2 + coefficient) else st)
        (fixed.rhs.map (fun b => -b), 0) := by
    apply foldl_congr_mem
    intro i hi acc
    have hik : i < k := List.mem_range.mp hi
    have hsh : k + 1 - i - 1 = 1 + (k - i - 1) := by omega
    rw [hsh, Nat.shiftRight_add]
  simp only [List.foldl_cons, List.foldl_nil]
  rw [hfold]
  have h0 : k + 1 - k - 1 = 0 := by omega
  rw [h0]
  rfl

/-- The characterization of `init_subtree` with the bit order the code
actually uses: the branch assigned at depth `i` is bit `k - 1 - i` of the
prefix index (most-significant-first). -/
theorem init_subtree_spec (fixed : Fixed) (k p m : ℕ)
    (hm : fixed.rhs.length = m)
    (hk : k ≤ fixed.constraints.length)
    (hrect : ∀ row ∈ fixed.constraints, row.length = m)
    (hp : p < 2 ^ k) :
    (init_subtree k p fixed).2
      = (∑ i ∈ Finset.range k,
          if p >>> (k - i - 1) &&& 1 = 1 then fixed.coefficients.getD i 0 else 0) ∧
    (init_subtree k p fixed).1.length = m ∧
    ∀ c < m, (init_subtree k p fixed).1.getD c 0
      = -(fixed.rhs.getD c 0) + ∑ i ∈ Finset.range k,
          (if p >>> (k - i - 1) &&& 1 = 1 then colEntry fixed i c else 0) := by
  induction k generalizing p with
  | zero =>
    refine ⟨by simp [init_subtree], by simp [init_subtree, hm], ?_⟩
    intro c hc
    simp only [init_subtree, List.range_zero, List.foldl_nil, Finset.range_zero,
      Finset.sum_empty, add_zero]
    have hcm : c < fixed.rhs.length := by omega
    rw [List.getD_eq_getElem _ _ (by simpa using hcm), List.getElem_map,
      List.getD_eq_getElem _ _ hcm]
  | succ k ih =>
    have hk' : k ≤ fixed.constraints.length := by omega
    have hp' : p >>> 1 < 2 ^ k := by
      rw [Nat.shiftRight_one]
      omega
    obtain ⟨ihobj, ihlen, ihget⟩ := ih (p >>> 1) hk' hp'
    have hbit : ∀ i, i < k → (p >>> 1) >>> (k - i - 1) &&& 1 = p >>> (k + 1 - i - 1) &&& 1 := by
      intro i hik
      have hsh : k + 1 - i - 1 = 1 + (k - i - 1) := by omega
      rw [hsh, Nat.shiftRight_add]
    have hrowk : (fixed.constraints.getD k []).length = m := by
      have hkc : k < fixed.constraints.length := by omega
      exact hrect _ (by
        rw [List.getD_eq_getElem _ _ hkc]
        exact List.getElem_mem hkc)
    have hlast : k + 1 - k - 1 = 0 := by omega
    rw [init_subtree_succ]
    by_cases hb : p &&& 1 = 1
    · rw [if_pos hb]
      refine ⟨?_, ?_, ?_⟩
      · simp only [Finset.sum_range_succ, hlast, Nat.shiftRight_zero]
        rw [if_pos hb, ihobj]
        congr 1
        exact Finset.sum_congr rfl (fun i hi => by
          rw [← hbit i (Finset.mem_range.mp hi)])
      · simp only [length_addRow, ihlen, hrowk]
        omega
      · intro c hc
        simp only
        rw [getD_addRow (by omega) (by omega), ihget c hc]
        simp only [Finset.sum_range_succ, hlast, Nat.shiftRight_zero]
        rw [if_pos hb]
        have hsum : (∑ i ∈ Finset.range k,
              if p >>> 1 >>> (k - i - 1) &&& 1 = 1 then colEntry fixed i c else 0)
            = ∑ i ∈ Finset.range k,
              if p >>> (k + 1 - i - 1) &&& 1 = 1 then colEntry fixed i c else 0 :=
          Finset.sum_congr rfl (fun i hi => by rw [hbit i (Finset.mem_range.mp hi)])
        rw [hsum]
        simp only [colEntry]
        ring
    · rw [if_neg hb]
      refine ⟨?_, ihlen, ?_⟩
      · simp only [Finset.sum_range_succ, hlast, Nat.shiftRight_zero]
        rw [if_neg hb, ihobj, add_zero]
        exact Finset.sum_congr rfl (fun i hi => by
          rw [← hbit i (Finset.mem_range.mp hi)])
      · intro c hc
        rw [ihget c hc]
        simp only [Finset.sum_range_succ, hlast, Nat.shiftRight_zero]
        rw [if_neg hb, add_zero]
        congr 1
        exact Finset.sum_congr rfl (fun i hi => by
          rw [← hbit i (Finset.mem_range.mp hi)])

/-! ## Semantics lemmas for assignments and the problem shape -/

theorem sum_getD_set_one (n d : ℕ) (g : ℕ → ℤ) (vars : List ℕ)
    (hdn : d < n) (hdl : d < vars.length) (hzero : vars.getD d 0 = 0) :
    (∑ v ∈ Finset.range n, g v * (((vars.set d 1).getD v 0 : ℕ) : ℤ))
      = (∑ v ∈ Finset.range n, g v * ((vars.getD v 0 : ℕ) : ℤ)) + g d := by
  have hmem : d ∈ Finset.range n := Finset.mem_range.mpr hdn
  rw [Finset.sum_eq_sum_diff_singleton_add hmem
    (fun v => g v * (((vars.set d 1).getD v 0 : ℕ) : ℤ))]
  rw [Finset.sum_eq_sum_diff_singleton_add hmem
    (fun v => g v * ((vars.getD v 0 : ℕ) : ℤ))]
  have hdiff : ∀ v ∈ Finset.range n \ {d},
      g v * (((vars.set d 1).getD v 0 : ℕ) : ℤ) = g v * ((vars.getD v 0 : ℕ) : ℤ) := by
    intro v hv
    have hne : d ≠ v := by
      intro hEq
      exact (Finset.mem_sdiff.mp hv).2 (by simp [hEq])
    rw [getD_set_ne hne]
  rw [Finset.sum_congr rfl hdiff, getD_set_self hdl, hzero]
  push_cast
  ring

theorem objVal_set_one (fixed : Fixed) (vars : List ℕ) (d : ℕ)
    (hdn : d < fixed.num_vars) (hdl : d < vars.length)
    (hzero : vars.getD d 0 = 0) :
    objVal fixed (vars.set d 1) = objVal fixed vars + fixed.coefficients.getD d 0 :=
  sum_getD_set_one _ _ _ _ hdn hdl hzero

theorem lhsSum_set_one (fixed : Fixed) (vars : List ℕ) (d c : ℕ)
    (hdn : d < fixed.num_vars) (hdl : d < vars.length)
    (hzero : vars.getD d 0 = 0) :
    lhsSum fixed (vars.set d 1) c = lhsSum fixed vars c + colEntry fixed d c :=
  sum_getD_set_one _ _ _ _ hdn hdl hzero

theorem one_mem_set_one {vars : List ℕ} {d : ℕ} (hd : d < vars.length) :
    1 ∈ vars.set d 1 := by
  have h1 : d < (vars.set d 1).length := by simpa using hd
  have h2 := getD_set_self (l := vars) (i := d) (v := 1) hd
  rw [List.getD_eq_getElem _ _ h1] at h2
  have h3 := List.getElem_mem h1
  rwa [h2] at h3

theorem acc_all_feasible (fixed : Fixed) (acc : List ℤ) (vars : List ℕ)
    (hal : acc.length = fixed.rhs.length)
    (hacc : ∀ c < fixed.rhs.length,
      acc.getD c 0 = lhsSum fixed vars c - fixed.rhs.getD c 0)
    (hall : (acc.all fun x => decide (0 ≤ x)) = true) :
    feasible fixed vars := by
  intro c hc
  have := (all_nonneg_iff acc).mp hall c (by omega)
  rw [hacc c hc] at this
  omega

theorem sized_cumLen {fixed : Fixed} (hsz : sizedFixed fixed) :
    fixed.cumulative.length = fixed.num_vars - 1 := by
  rw [hsz.2.2.2.1, make_cumulative_length, hsz.2.1]

theorem sized_row_length {fixed : Fixed} (hsz : sizedFixed fixed) {v : ℕ}
    (hv : v < fixed.num_vars) :
    (fixed.constraints.getD v []).length = fixed.rhs.length := by
  have hvc : v < fixed.constraints.length := by rw [hsz.2.1]; omega
  exact hsz.2.2.1 _ (by
    rw [List.getD_eq_getElem _ _ hvc]
    exact List.getElem_mem hvc)

theorem mem_allVecs_iff (n : ℕ) (x : List ℕ) :
    x ∈ allVecs n ↔ x.length = n ∧ ∀ i < n, x.getD i 0 ≤ 1 := by
  induction n generalizing x with
  | zero =>
    simp only [allVecs, List.mem_singleton]
    constructor
    · rintro rfl; exact ⟨rfl, by omega⟩
    · intro ⟨h, _⟩; exact List.eq_nil_of_length_eq_zero h
  | succ n ih =>
    simp only [allVecs, List.mem_flatMap]
    constructor
    · rintro ⟨v, hv, hx⟩
      obtain ⟨hvl, hvb⟩ := (ih v).mp hv
      have hcons : ∀ b : ℕ, b ≤ 1 → (b :: v).length = n + 1 ∧
          ∀ i < n + 1, (b :: v).getD i 0 ≤ 1 := by
        intro b hb
        refine ⟨by simp [hvl], ?_⟩
        intro i hi
        cases i with
        | zero => simpa using hb
        | succ j => rw [List.getD_cons_succ]; exact hvb j (by omega)
      simp only [List.mem_cons, List.mem_singleton, List.not_mem_nil,
        or_false] at hx
      rcases hx with h | h
      · rw [h]; exact hcons 0 (by omega)
      · rw [h]; exact hcons 1 (by omega)
    · intro ⟨hl, hb⟩
      cases x with
      | nil => simp at hl
      | cons b t =>
        refine ⟨t, (ih t).mpr ⟨by simpa using hl, ?_⟩, ?_⟩
        · intro i hi
          have := hb (i + 1) (by omega)
          rwa [List.getD_cons_succ] at this
        · have hb0 := hb 0 (by omega)
          rw [List.getD_cons_zero] at hb0
          interval_cases b
          · simp
          · simp

/-! ## Unfolding lemmas for the recursive solver -/

theorem nodeRec_prune (fixed : Fixed) (index : ℕ) (acc : List ℤ) (obj : ℤ)
    (vars : List ℕ) (st : RAcc)
    (hprune : st.best ≤ ((obj + fixed.coefficients.getD index 0 : ℤ) : WithTop ℤ)) :
    nodeRec fixed 1 index acc obj vars st = { st with count := st.count + 1 } := by
  rw [nodeRec.eq_def, if_pos (rfl : (1:ℕ) = 1), if_pos hprune]

theorem nodeRec_fathom (fixed : Fixed) (index : ℕ) (acc : List ℤ) (obj : ℤ)
    (vars : List ℕ) (st : RAcc)
    (hprune : ¬ st.best ≤ ((obj + fixed.coefficients.getD index 0 : ℤ) : WithTop ℤ))
    (hfath : ((addRow acc (fixed.constraints.getD index [])).all
      fun a => decide (0 ≤ a)) = true) :
    nodeRec fixed 1 index acc obj vars st
      = { best := ((obj + fixed.coefficients.getD index 0 : ℤ) : WithTop ℤ),
          solution := vars.set index 1, count := st.count + 1 } := by
  rw [nodeRec.eq_def, if_pos (rfl : (1:ℕ) = 1), if_neg hprune, if_pos hfath]

theorem nodeRec_none1 (fixed : Fixed) (index : ℕ) (acc : List ℤ) (obj : ℤ)
    (vars : List ℕ) (st : RAcc)
    (hprune : ¬ st.best ≤ ((obj + fixed.coefficients.getD index 0 : ℤ) : WithTop ℤ))
    (hfath : ¬ ((addRow acc (fixed.constraints.getD index [])).all
      fun a => decide (0 ≤ a)) = true)
    (hcum : fixed.cumulative[index]? = none) :
    nodeRec fixed 1 index acc obj vars st = { st with count := st.count + 1 } := by
  rw [nodeRec.eq_def, if_pos (rfl : (1:ℕ) = 1), if_neg hprune]
  rw [if_neg hfath]
  split
  · rfl
  · rename_i cc hsome; rw [hsome] at hcum; cases hcum

theorem nodeRec_descend1 (fixed : Fixed) (index : ℕ) (acc : List ℤ) (obj : ℤ)
    (vars : List ℕ) (st : RAcc) (ccons : List ℤ)
    (hprune : ¬ st.best ≤ ((obj + fixed.coefficients.getD index 0 : ℤ) : WithTop ℤ))
    (hfath : ¬ ((addRow acc (fixed.constraints.getD index [])).all
      fun a => decide (0 ≤ a)) = true)
    (hcum : fixed.cumulative[index]? = some ccons)
    (hdesc : ((List.zipWith (fun a b => a + b)
      (addRow acc (fixed.constraints.getD index [])) ccons).all
        fun a => decide (0 ≤ a)) = true) :
    nodeRec fixed 1 index acc obj vars st
      = pairResult fixed (index + 1) (addRow acc (fixed.constraints.getD index []))
          (obj + fixed.coefficients.getD index 0) (vars.set index 1)
          { st with count := st.count + 1 } := by
  rw [nodeRec.eq_def, if_pos (rfl : (1:ℕ) = 1), if_neg hprune]
  rw [if_neg hfath]
  split
  · rename_i hnone; rw [hnone] at hcum; cases hcum
  · rename_i cc hsome
    rw [hsome] at hcum
    cases hcum
    rw [if_pos hdesc]
    rfl

theorem nodeRec_stop1 (fixed : Fixed) (index : ℕ) (acc : List ℤ) (obj : ℤ)
    (vars : List ℕ) (st : RAcc) (ccons : List ℤ)
    (hprune : ¬ st.best ≤ ((obj + fixed.coefficients.getD index 0 : ℤ) : WithTop ℤ))
    (hfath : ¬ ((addRow acc (fixed.constraints.getD index [])).all
      fun a => decide (0 ≤ a)) = true)
    (hcum : fixed.cumulative[index]? = some ccons)
    (hdesc : ¬ ((List.zipWith (fun a b => a + b)
      (addRow acc (fixed.constraints.getD index [])) ccons).all
        fun a => decide (0 ≤ a)) = true) :
    nodeRec fixed 1 index acc obj vars st = { st with count := st.count + 1 } := by
  rw [nodeRec.eq_def, if_pos (rfl : (1:ℕ) = 1), if_neg hprune]
  rw [if_neg hfath]
  split
  · rfl
  · rename_i cc hsome
    rw [hsome] at hcum
    cases hcum
    rw [if_neg hdesc]

theorem nodeRec_none0 (fixed : Fixed) (index : ℕ) (acc : List ℤ) (obj : ℤ)
    (vars : List ℕ) (st : RAcc)
    (hcum : fixed.cumulative[index]? = none) :
    nodeRec fixed 0 index acc obj vars st = { st with count := st.count + 1 } := by
  rw [nodeRec.eq_def, if_neg (by omega : ¬ (0:ℕ) = 1)]
  split
  · rfl
  · rename_i cc hsome; rw [hsome] at hcum; cases hcum

theorem nodeRec_descend0 (fixed : Fixed) (index : ℕ) (acc : List ℤ) (obj : ℤ)
    (vars : List ℕ) (st : RAcc) (ccons : List ℤ)
    (hcum : fixed.cumulative[index]? = some ccons)
    (hdesc : ((List.zipWith (fun a b => a + b) acc ccons).all
        fun a => decide (0 ≤ a)) = true) :
    nodeRec fixed 0 index acc obj vars st
      = pairResult fixed (index + 1) acc obj vars { st with count := st.count + 1 } := by
  rw [nodeRec.eq_def, if_neg (by omega : ¬ (0:ℕ) = 1)]
  split
  · rename_i hnone; rw [hnone] at hcum; cases hcum
  · rename_i cc hsome
    rw [hsome] at hcum
    cases hcum
    rw [if_pos hdesc]
    rfl

theorem nodeRec_stop0 (fixed : Fixed) (index : ℕ) (acc : List ℤ) (obj : ℤ)
    (vars : List ℕ) (st : RAcc) (ccons : List ℤ)
    (hcum : fixed.cumulative[index]? = some ccons)
    (hdesc : ¬ ((List.zipWith (fun a b => a + b) acc ccons).all
        fun a => decide (0 ≤ a)) = true) :
    nodeRec fixed 0 index acc obj vars st = { st with count := st.count + 1 } := by
  rw [nodeRec.eq_def, if_neg (by omega : ¬ (0:ℕ) = 1)]
  split
  · rfl
  · rename_i cc hsome
    rw [hsome] at hcum
    cases hcum
    rw [if_neg hdesc]

/-! ## The recursive solver maintains the incumbent/solution invariant -/

theorem nodeRec_basic (fixed : Fixed) (hsz : sizedFixed fixed) :
    ∀ (fuel branch index : ℕ) (acc : List ℤ) (obj : ℤ) (vars : List ℕ)
      (st : RAcc),
    fixed.cumulative.length ≤ index + fuel →
    branch ≤ 1 →
    index < fixed.num_vars →
    vars.length = fixed.num_vars →
    (∀ i < fixed.num_vars, vars.getD i 0 ≤ 1) →
    (∀ i, index ≤ i → vars.getD i 0 = 0) →
    acc.length = fixed.rhs.length →
    (∀ c < fixed.rhs.length,
      acc.getD c 0 = lhsSum fixed vars c - fixed.rhs.getD c 0) →
    obj = objVal fixed vars →
    STinv fixed st →
    STinv fixed (nodeRec fixed branch index acc obj vars st) ∧
    (nodeRec fixed branch index acc obj vars st).best ≤ st.best := by
  intro fuel
  induction fuel using Nat.strong_induction_on with
  | _ fuel ih =>
  intro branch index acc obj vars st hfuel hbr hidx hvl hvb hv0 hal hacc hobj hst
  have hrow : (fixed.constraints.getD index []).length = fixed.rhs.length :=
    sized_row_length hsz hidx
  have hvidx : index < vars.length := by omega
  have hvz : vars.getD index 0 = 0 := hv0 index le_rfl
  have hacc1 : ∀ c < fixed.rhs.length,
      (addRow acc (fixed.constraints.getD index [])).getD c 0
        = lhsSum fixed (vars.set index 1) c - fixed.rhs.getD c 0 := by
    intro c hc
    rw [getD_addRow (by omega) (by omega), hacc c hc,
      lhsSum_set_one fixed vars index c hidx hvidx hvz]
    simp only [colEntry]
    ring
  have hobj1 : obj + fixed.coefficients.getD index 0
      = objVal fixed (vars.set index 1) := by
    rw [hobj, objVal_set_one fixed vars index hidx hvidx hvz]
  have hal1 : (addRow acc (fixed.constraints.getD index [])).length
      = fixed.rhs.length := by
    rw [length_addRow, hal, hrow]
    omega
  have hvl1 : (vars.set index 1).length = fixed.num_vars := by simpa using hvl
  have hvb1 : ∀ i < fixed.num_vars, (vars.set index 1).getD i 0 ≤ 1 := by
    intro i hi
    by_cases hii : index = i
    · subst hii; rw [getD_set_self hvidx]
    · rw [getD_set_ne hii]; exact hvb i hi
  have hstc : STinv fixed { st with count := st.count + 1 } := hst
  interval_cases branch
  · -- zero branch
    cases hcum : fixed.cumulative[index]? with
    | none =>
      rw [nodeRec_none0 _ _ _ _ _ _ hcum]
      exact ⟨hstc, le_refl _⟩
    | some ccons =>
      have hcl : index < fixed.cumulative.length := (List.getElem?_eq_some.mp hcum).1
      have hidx1 : index + 1 < fixed.num_vars := by
        have h2 := sized_cumLen hsz
        omega
      have hfuelLt : fuel - 1 < fuel := by omega
      have hfuel' : fixed.cumulative.length ≤ (index + 1) + (fuel - 1) := by omega
      have hv0' : ∀ i, index + 1 ≤ i → vars.getD i 0 = 0 :=
        fun i hi => hv0 i (by omega)
      by_cases hdesc : ((List.zipWith (fun a b => a + b) acc ccons).all
          fun a => decide (0 ≤ a)) = true
      · rw [nodeRec_descend0 _ _ _ _ _ _ _ hcum hdesc]
        obtain ⟨hst2, hle2⟩ := ih (fuel - 1) hfuelLt 0 (index + 1) acc obj vars
          { st with count := st.count + 1 } hfuel' (by omega) hidx1 hvl hvb hv0'
          hal hacc hobj hstc
        obtain ⟨hst3, hle3⟩ := ih (fuel - 1) hfuelLt 1 (index + 1) acc obj vars
          _ hfuel' (by omega) hidx1 hvl hvb hv0' hal hacc hobj hst2
        exact ⟨hst3, le_trans hle3 hle2⟩
      · rw [nodeRec_stop0 _ _ _ _ _ _ _ hcum hdesc]
        exact ⟨hstc, le_refl _⟩
  · -- one branch
    by_cases hprune : st.best
        ≤ ((obj + fixed.coefficients.getD index 0 : ℤ) : WithTop ℤ)
    · rw [nodeRec_prune _ _ _ _ _ _ hprune]
      exact ⟨hstc, le_refl _⟩
    · by_cases hfath : ((addRow acc (fixed.constraints.getD index [])).all
          fun a => decide (0 ≤ a)) = true
      · rw [nodeRec_fathom _ _ _ _ _ _ hprune hfath]
        constructor
        · constructor
          · intro htop
            exact absurd htop (WithTop.coe_ne_top)
          · intro _
            refine ⟨⟨hvl1, hvb1⟩, one_mem_set_one hvidx, ?_, ?_⟩
            · exact acc_all_feasible fixed _ _ hal1 hacc1 hfath
            · simp only
              rw [← hobj1]
        · exact le_of_lt (lt_of_not_le hprune)
      · cases hcum : fixed.cumulative[index]? with
        | none =>
          rw [nodeRec_none1 _ _ _ _ _ _ hprune hfath hcum]
          exact ⟨hstc, le_refl _⟩
        | some ccons =>
          have hcl : index < fixed.cumulative.length :=
            (List.getElem?_eq_some.mp hcum).1
          have hidx1 : index + 1 < fixed.num_vars := by
            have h2 := sized_cumLen hsz
            omega
          have hfuelLt : fuel - 1 < fuel := by omega
          have hfuel' : fixed.cumulative.length ≤ (index + 1) + (fuel - 1) := by
            omega
          have hv01 : ∀ i, index + 1 ≤ i → (vars.set index 1).getD i 0 = 0 := by
            intro i hi
            rw [getD_set_ne (by omega)]
            exact hv0 i (by omega)
          by_cases hdesc : ((List.zipWith (fun a b => a + b)
              (addRow acc (fixed.constraints.getD index [])) ccons).all
                fun a => decide (0 ≤ a)) = true
          · rw [nodeRec_descend1 _ _ _ _ _ _ _ hprune hfath hcum hdesc]
            obtain ⟨hst2, hle2⟩ := ih (fuel - 1) hfuelLt 0 (index + 1)
              (addRow acc (fixed.constraints.getD index []))
              (obj + fixed.coefficients.getD index 0) (vars.set index 1)
              { st with count := st.count + 1 } hfuel' (by omega) hidx1 hvl1
              hvb1 hv01 hal1 hacc1 hobj1 hstc
            obtain ⟨hst3, hle3⟩ := ih (fuel - 1) hfuelLt 1 (index + 1)
              (addRow acc (fixed.constraints.getD index []))
              (obj + fixed.coefficients.getD index 0) (vars.set index 1)
              _ hfuel' (by omega) hidx1 hvl1 hvb1 hv01 hal1 hacc1 hobj1 hst2
            exact ⟨hst3, le_trans hle3 hle2⟩
          · rw [nodeRec_stop1 _ _ _ _ _ _ _ hprune hfath hcum hdesc]
            exact ⟨hstc, le_refl _⟩

/-! ## Single-step lemmas for the iterative machine -/

theorem step_terminate (fixed : Fixed) (k : ℕ) (s : SubState)
    (h : s.flow = Flow.Terminate) : stepSub fixed k s = s := by
  obtain ⟨vars, d, flow, count, best, sol, acc, obj, br, gb⟩ := s
  simp only at h
  subst h
  rfl

theorem runSub_frozen (fixed : Fixed) (k n : ℕ) (s : SubState)
    (h : s.flow = Flow.Terminate) : runSub fixed k n s = s := by
  induction n with
  | zero => rfl
  | succ n ihn =>
    rw [runSub, step_terminate fixed k s h]
    exact ihn

theorem runSub_add (fixed : Fixed) (k a b : ℕ) (s : SubState) :
    runSub fixed k (a + b) s = runSub fixed k b (runSub fixed k a s) := by
  induction a generalizing s with
  | zero => rw [Nat.zero_add]; rfl
  | succ a iha =>
    have : a + 1 + b = (a + b) + 1 := by omega
    rw [this]
    show runSub fixed k (a + b) (stepSub fixed k s) = _
    rw [iha]
    rfl

theorem step_backtrack_term (fixed : Fixed) (k : ℕ) (vars : List ℕ)
    (count : ℕ) (best : WithTop ℤ) (sol : List ℕ) (acc : List ℤ) (obj : ℤ)
    (br : ℕ) (gb : WithTop ℤ) (h1 : vars.getD k 0 = 1) :
    stepSub fixed k ⟨vars, k, Flow.Backtrack, count, best, sol, acc, obj, br, gb⟩
      = ⟨vars, k, Flow.Terminate, count, best, sol, acc, obj, br, gb⟩ := by
  simp only [stepSub]
  rw [if_pos h1, if_true]

theorem step_backtrack_pop (fixed : Fixed) (k : ℕ) (vars : List ℕ) (d : ℕ)
    (count : ℕ) (best : WithTop ℤ) (sol : List ℕ) (acc : List ℤ) (obj : ℤ)
    (br : ℕ) (gb : WithTop ℤ) (h1 : vars.getD d 0 = 1) (h2 : ¬ d = k) :
    stepSub fixed k ⟨vars, d, Flow.Backtrack, count, best, sol, acc, obj, br, gb⟩
      = ⟨vars.set d 0, d - 1, Flow.Backtrack, count, best, sol,
          subRow acc (fixed.constraints.getD d []),
          obj - fixed.coefficients.getD d 0, br, gb⟩ := by
  simp only [stepSub]
  rw [if_pos h1, if_neg h2]

theorem step_backtrack_flip (fixed : Fixed) (k : ℕ) (vars : List ℕ) (d : ℕ)
    (count : ℕ) (best : WithTop ℤ) (sol : List ℕ) (acc : List ℤ) (obj : ℤ)
    (br : ℕ) (gb : WithTop ℤ) (h1 : ¬ vars.getD d 0 = 1) :
    stepSub fixed k ⟨vars, d, Flow.Backtrack, count, best, sol, acc, obj, br, gb⟩
      = ⟨vars, d, Flow.Normal, count, best, sol, acc, obj, 1, gb⟩ := by
  simp only [stepSub]
  rw [if_neg h1]

theorem step_normal0_none (fixed : Fixed) (k : ℕ) (vars : List ℕ) (d : ℕ)
    (count : ℕ) (best : WithTop ℤ) (sol : List ℕ) (acc : List ℤ) (obj : ℤ)
    (gb : WithTop ℤ) (hcum : fixed.cumulative[d]? = none) :
    stepSub fixed k ⟨vars, d, Flow.Normal, count, best, sol, acc, obj, 0, gb⟩
      = ⟨vars, d, Flow.Backtrack, count + 1, best, sol, acc, obj, 0, gb⟩ := by
  simp only [stepSub]
  rw [if_neg (by omega : ¬ (0:ℕ) = 1)]
  simp only [descendTest, hcum]

theorem step_normal0_descend (fixed : Fixed) (k : ℕ) (vars : List ℕ) (d : ℕ)
    (count : ℕ) (best : WithTop ℤ) (sol : List ℕ) (acc : List ℤ) (obj : ℤ)
    (gb : WithTop ℤ) (ccons : List ℤ)
    (hcum : fixed.cumulative[d]? = some ccons)
    (hdesc : ((List.zipWith (fun a b => a + b) acc ccons).all
        fun x => decide (0 ≤ x)) = true) :
    stepSub fixed k ⟨vars, d, Flow.Normal, count, best, sol, acc, obj, 0, gb⟩
      = ⟨vars, d + 1, Flow.Normal, count + 1, best, sol, acc, obj, 0, gb⟩ := by
  simp only [stepSub]
  rw [if_neg (by omega : ¬ (0:ℕ) = 1)]
  simp only [descendTest, hcum]
  rw [if_pos hdesc]

theorem step_normal0_stop (fixed : Fixed) (k : ℕ) (vars : List ℕ) (d : ℕ)
    (count : ℕ) (best : WithTop ℤ) (sol : List ℕ) (acc : List ℤ) (obj : ℤ)
    (gb : WithTop ℤ) (ccons : List ℤ)
    (hcum : fixed.cumulative[d]? = some ccons)
    (hdesc : ¬ ((List.zipWith (fun a b => a + b) acc ccons).all
        fun x => decide (0 ≤ x)) = true) :
    stepSub fixed k ⟨vars, d, Flow.Normal, count, best, sol, acc, obj, 0, gb⟩
      = ⟨vars, d, Flow.Backtrack, count + 1, best, sol, acc, obj, 0, gb⟩ := by
  simp only [stepSub]
  rw [if_neg (by omega : ¬ (0:ℕ) = 1)]
  simp only [descendTest, hcum]
  rw [if_neg hdesc]

theorem step_normal1_prune (fixed : Fixed) (k : ℕ) (vars : List ℕ) (d : ℕ)
    (count : ℕ) (B : WithTop ℤ) (sol : List ℕ) (acc : List ℤ) (obj : ℤ)
    (hprune : B ≤ ((obj + fixed.coefficients.getD d 0 : ℤ) : WithTop ℤ)) :
    stepSub fixed k ⟨vars, d, Flow.Normal, count, B, sol, acc, obj, 1, B⟩
      = ⟨vars.set d 1, d, Flow.Backtrack, count + 1, B, sol,
          addRow acc (fixed.constraints.getD d []),
          obj + fixed.coefficients.getD d 0, 1, B⟩ := by
  simp only [stepSub]
  rw [if_true, if_pos hprune, if_pos hprune]

theorem step_normal1_fathom (fixed : Fixed) (k : ℕ) (vars : List ℕ) (d : ℕ)
    (count : ℕ) (B : WithTop ℤ) (sol : List ℕ) (acc : List ℤ) (obj : ℤ)
    (hprune : ¬ B ≤ ((obj + fixed.coefficients.getD d 0 : ℤ) : WithTop ℤ))
    (hfath : ((addRow acc (fixed.constraints.getD d [])).all
        fun x => decide (0 ≤ x)) = true) :
    stepSub fixed k ⟨vars, d, Flow.Normal, count, B, sol, acc, obj, 1, B⟩
      = ⟨vars.set d 1, d, Flow.Backtrack, count + 1,
          ((obj + fixed.coefficients.getD d 0 : ℤ) : WithTop ℤ), vars.set d 1,
          addRow acc (fixed.constraints.getD d []),
          obj + fixed.coefficients.getD d 0, 1,
          ((obj + fixed.coefficients.getD d 0 : ℤ) : WithTop ℤ)⟩ := by
  simp only [stepSub]
  rw [if_true, if_neg hprune]
  simp only [fathomDescend]
  rw [if_pos hfath]

theorem step_normal1_none (fixed : Fixed) (k : ℕ) (vars : List ℕ) (d : ℕ)
    (count : ℕ) (B : WithTop ℤ) (sol : List ℕ) (acc : List ℤ) (obj : ℤ)
    (hprune : ¬ B ≤ ((obj + fixed.coefficients.getD d 0 : ℤ) : WithTop ℤ))
    (hfath : ¬ ((addRow acc (fixed.constraints.getD d [])).all
        fun x => decide (0 ≤ x)) = true)
    (hcum : fixed.cumulative[d]? = none) :
    stepSub fixed k ⟨vars, d, Flow.Normal, count, B, sol, acc, obj, 1, B⟩
      = ⟨vars.set d 1, d, Flow.Backtrack, count + 1, B, sol,
          addRow acc (fixed.constraints.getD d []),
          obj + fixed.coefficients.getD d 0, 1, B⟩ := by
  simp only [stepSub]
  rw [if_true, if_neg hprune]
  simp only [fathomDescend]
  rw [if_neg hfath]
  simp only [descendTest, hcum]

theorem step_normal1_descend (fixed : Fixed) (k : ℕ) (vars : List ℕ) (d : ℕ)
    (count : ℕ) (B : WithTop ℤ) (sol : List ℕ) (acc : List ℤ) (obj : ℤ)
    (ccons : List ℤ)
    (hprune : ¬ B ≤ ((obj + fixed.coefficients.getD d 0 : ℤ) : WithTop ℤ))
    (hfath : ¬ ((addRow acc (fixed.constraints.getD d [])).all
        fun x => decide (0 ≤ x)) = true)
    (hcum : fixed.cumulative[d]? = some ccons)
    (hdesc : ((List.zipWith (fun a b => a + b)
        (addRow acc (fixed.constraints.getD d [])) ccons).all
          fun x => decide (0 ≤ x)) = true) :
    stepSub fixed k ⟨vars, d, Flow.Normal, count, B, sol, acc, obj, 1, B⟩
      = ⟨vars.set d 1, d + 1, Flow.Normal, count + 1, B, sol,
          addRow acc (fixed.constraints.getD d []),
          obj + fixed.coefficients.getD d 0, 0, B⟩ := by
  simp only [stepSub]
  rw [if_true, if_neg hprune]
  simp only [fathomDescend]
  rw [if_neg hfath]
  simp only [descendTest, hcum]
  rw [if_pos hdesc]

theorem step_normal1_stop (fixed : Fixed) (k : ℕ) (vars : List ℕ) (d : ℕ)
    (count : ℕ) (B : WithTop ℤ) (sol : List ℕ) (acc : List ℤ) (obj : ℤ)
    (ccons : List ℤ)
    (hprune : ¬ B ≤ ((obj + fixed.coefficients.getD d 0 : ℤ) : WithTop ℤ))
    (hfath : ¬ ((addRow acc (fixed.constraints.getD d [])).all
        fun x => decide (0 ≤ x)) = true)
    (hcum : fixed.cumulative[d]? = some ccons)
    (hdesc : ¬ ((List.zipWith (fun a b => a + b)
        (addRow acc (fixed.constraints.getD d [])) ccons).all
          fun x => decide (0 ≤ x)) = true) :
    stepSub fixed k ⟨vars, d, Flow.Normal, count, B, sol, acc, obj, 1, B⟩
      = ⟨vars.set d 1, d, Flow.Backtrack, count + 1, B, sol,
          addRow acc (fixed.constraints.getD d []),
          obj + fixed.coefficients.getD d 0, 1, B⟩ := by
  simp only [stepSub]
  rw [if_true, if_neg hprune]
  simp only [fathomDescend]
  rw [if_neg hfath]
  simp only [descendTest, hcum]
  rw [if_neg hdesc]

theorem runSub_one (fixed : Fixed) (k : ℕ) (s : SubState) :
    runSub fixed k 1 s = stepSub fixed k s := rfl

/-! ## The machine simulates the recursive solver -/

theorem machineSim (fixed : Fixed) (hsz : sizedFixed fixed) :
    ∀ fuel : ℕ, oneSimStmt fixed fuel ∧ pairSimStmt fixed fuel := by
  intro fuel
  induction fuel using Nat.strong_induction_on with
  | _ fuel ih =>
  have hOne : oneSimStmt fixed fuel := by
    intro d k vars acc obj B sol count hfuel hkd hdn hvl hv0 hal
    have hvd : vars.getD d 0 = 0 := hv0 d le_rfl
    by_cases hprune : B ≤ ((obj + fixed.coefficients.getD d 0 : ℤ) : WithTop ℤ)
    · refine ⟨1, ?_⟩
      rw [runSub_one,
        step_normal1_prune fixed k vars d count B sol acc obj hprune,
        nodeRec_prune fixed d acc obj vars ⟨B, sol, count⟩ hprune]
    · by_cases hfath : ((addRow acc (fixed.constraints.getD d [])).all
          fun x => decide (0 ≤ x)) = true
      · refine ⟨1, ?_⟩
        rw [runSub_one,
          step_normal1_fathom fixed k vars d count B sol acc obj hprune hfath,
          nodeRec_fathom fixed d acc obj vars ⟨B, sol, count⟩ hprune hfath]
      · cases hcum : fixed.cumulative[d]? with
        | none =>
          refine ⟨1, ?_⟩
          rw [runSub_one,
            step_normal1_none fixed k vars d count B sol acc obj hprune hfath hcum,
            nodeRec_none1 fixed d acc obj vars ⟨B, sol, count⟩ hprune hfath hcum]
        | some ccons =>
          by_cases hdesc : ((List.zipWith (fun a b => a + b)
              (addRow acc (fixed.constraints.getD d [])) ccons).all
                fun x => decide (0 ≤ x)) = true
          · -- the one branch descends into the subtree at depth d+1
            have hcl : d < fixed.cumulative.length :=
              (List.getElem?_eq_some.mp hcum).1
            have hd1n : d + 1 < fixed.num_vars := by
              have := sized_cumLen hsz; omega
            have hrow1 : (fixed.constraints.getD (d + 1) []).length
                = fixed.rhs.length := sized_row_length hsz hd1n
            have hrowd : (fixed.constraints.getD d []).length
                = fixed.rhs.length := sized_row_length hsz hdn
            have hal1 : (addRow acc (fixed.constraints.getD d [])).length
                = fixed.rhs.length := by
              rw [length_addRow, hal, hrowd]; omega
            have hv01 : ∀ i, d + 1 ≤ i → (vars.set d 1).getD i 0 = 0 := by
              intro i hi
              rw [getD_set_ne (by omega)]
              exact hv0 i (by omega)
            have hvl1 : (vars.set d 1).length = fixed.num_vars := by
              simpa using hvl
            obtain ⟨t1, ht1⟩ := (ih (fuel - 1) (by omega)).2 (d + 1) k
              (vars.set d 1) (addRow acc (fixed.constraints.getD d []))
              (obj + fixed.coefficients.getD d 0) B sol (count + 1)
              (by omega) (by omega) hd1n hvl1 hv01 hal1
            have hstep1 : stepSub fixed k
                ⟨vars, d, Flow.Normal, count, B, sol, acc, obj, 1, B⟩
                = ⟨vars.set d 1, d + 1, Flow.Normal, count + 1, B, sol,
                    addRow acc (fixed.constraints.getD d []),
                    obj + fixed.coefficients.getD d 0, 0, B⟩ :=
              step_normal1_descend fixed k vars d count B sol acc obj ccons
                hprune hfath hcum hdesc
            set R0 := pairResult fixed (d + 1)
              (addRow acc (fixed.constraints.getD d []))
              (obj + fixed.coefficients.getD d 0) (vars.set d 1)
              ⟨B, sol, count + 1⟩ with hR0
            have hpop : stepSub fixed k
                ⟨(vars.set d 1).set (d + 1) 1, d + 1, Flow.Backtrack, R0.count,
                  R0.best, R0.solution,
                  addRow (addRow acc (fixed.constraints.getD d []))
                    (fixed.constraints.getD (d + 1) []),
                  obj + fixed.coefficients.getD d 0
                    + fixed.coefficients.getD (d + 1) 0, 1, R0.best⟩
                = ⟨vars.set d 1, d, Flow.Backtrack, R0.count, R0.best,
                    R0.solution, addRow acc (fixed.constraints.getD d []),
                    obj + fixed.coefficients.getD d 0, 1, R0.best⟩ := by
              rw [step_backtrack_pop fixed k _ (d + 1) _ _ _ _ _ _ _
                (getD_set_self (by rw [hvl1]; omega)) (by omega)]
              congr 1
              · rw [List.set_set]
                exact set_of_getD_zero (by
                  rw [getD_set_ne (by omega)]
                  exact hv0 (d + 1) (by omega))
              · exact subRow_addRow (by rw [hal1, hrow1])
              · exact add_sub_cancel_right _ _
            refine ⟨1 + t1 + 1, ?_⟩
            rw [runSub_add fixed k (1 + t1) 1, runSub_add fixed k 1 t1,
              runSub_one, runSub_one, hstep1, ht1, hpop,
              nodeRec_descend1 fixed d acc obj vars ⟨B, sol, count⟩ ccons
                hprune hfath hcum hdesc]
          · refine ⟨1, ?_⟩
            rw [runSub_one,
              step_normal1_stop fixed k vars d count B sol acc obj ccons
                hprune hfath hcum hdesc,
              nodeRec_stop1 fixed d acc obj vars ⟨B, sol, count⟩ ccons
                hprune hfath hcum hdesc]
  refine ⟨hOne, ?_⟩
  intro d k vars acc obj B sol count hfuel hkd hdn hvl hv0 hal
  have hvd : vars.getD d 0 = 0 := hv0 d le_rfl
  have hflip : stepSub fixed k
      ⟨vars, d, Flow.Backtrack, count + 1, B, sol, acc, obj, 0, B⟩
      = ⟨vars, d, Flow.Normal, count + 1, B, sol, acc, obj, 1, B⟩ :=
    step_backtrack_flip fixed k vars d (count + 1) B sol acc obj 0 B
      (by rw [hvd]; omega)
  cases hcum : fixed.cumulative[d]? with
  | none =>
    obtain ⟨t2, ht2⟩ := hOne d k vars acc obj B sol (count + 1) hfuel hkd hdn
      hvl hv0 hal
    refine ⟨1 + 1 + t2, ?_⟩
    rw [runSub_add fixed k (1 + 1) t2, runSub_add fixed k 1 1,
      runSub_one, runSub_one,
      step_normal0_none fixed k vars d count B sol acc obj B hcum,
      hflip, ht2]
    simp only [pairResult]
    rw [nodeRec_none0 fixed d acc obj vars ⟨B, sol, count⟩ hcum]
  | some ccons =>
    by_cases hdesc : ((List.zipWith (fun a b => a + b) acc ccons).all
        fun x => decide (0 ≤ x)) = true
    · -- the zero branch descends into the subtree at depth d+1
      have hcl : d < fixed.cumulative.length :=
        (List.getElem?_eq_some.mp hcum).1
      have hd1n : d + 1 < fixed.num_vars := by
        have := sized_cumLen hsz; omega
      have hrow1 : (fixed.constraints.getD (d + 1) []).length
          = fixed.rhs.length := sized_row_length hsz hd1n
      have hv01 : ∀ i, d + 1 ≤ i → vars.getD i 0 = 0 :=
        fun i hi => hv0 i (by omega)
      obtain ⟨t1, ht1⟩ := (ih (fuel - 1) (by omega)).2 (d + 1) k vars acc obj
        B sol (count + 1) (by omega) (by omega) hd1n hvl hv01 hal
      set R0 := pairResult fixed (d + 1) acc obj vars ⟨B, sol, count + 1⟩
        with hR0
      have hpop : stepSub fixed k
          ⟨vars.set (d + 1) 1, d + 1, Flow.Backtrack, R0.count, R0.best,
            R0.solution, addRow acc (fixed.constraints.getD (d + 1) []),
            obj + fixed.coefficients.getD (d + 1) 0, 1, R0.best⟩
          = ⟨vars, d, Flow.Backtrack, R0.count, R0.best, R0.solution, acc,
              obj, 1, R0.best⟩ := by
        rw [step_backtrack_pop fixed k _ (d + 1) _ _ _ _ _ _ _
          (getD_set_self (by rw [hvl]; omega)) (by omega)]
        congr 1
        · rw [List.set_set]
          exact set_of_getD_zero (hv0 (d + 1) (by omega))
        · exact subRow_addRow (by rw [hal, hrow1])
        · exact add_sub_cancel_right _ _
      have hflip2 : stepSub fixed k
          ⟨vars, d, Flow.Backtrack, R0.count, R0.best, R0.solution, acc, obj,
            1, R0.best⟩
          = ⟨vars, d, Flow.Normal, R0.count, R0.best, R0.solution, acc, obj,
              1, R0.best⟩ :=
        step_backtrack_flip fixed k vars d R0.count R0.best R0.solution acc
          obj 1 R0.best (by rw [hvd]; omega)
      obtain ⟨t2, ht2⟩ := hOne d k vars acc obj R0.best R0.solution R0.count
        hfuel hkd hdn hvl hv0 hal
      refine ⟨1 + t1 + 1 + 1 + t2, ?_⟩
      rw [runSub_add fixed k (1 + t1 + 1 + 1) t2,
        runSub_add fixed k (1 + t1 + 1) 1, runSub_add fixed k (1 + t1) 1,
        runSub_add fixed k 1 t1, runSub_one, runSub_one, runSub_one,
        step_normal0_descend fixed k vars d count B sol acc obj B ccons hcum
          hdesc,
        ht1, hpop, hflip2, ht2]
      simp only [pairResult]
      rw [nodeRec_descend0 fixed d acc obj vars ⟨B, sol, count⟩ ccons hcum
        hdesc]
    · obtain ⟨t2, ht2⟩ := hOne d k vars acc obj B sol (count + 1) hfuel hkd
        hdn hvl hv0 hal
      refine ⟨1 + 1 + t2, ?_⟩
      rw [runSub_add fixed k (1 + 1) t2, runSub_add fixed k 1 1,
        runSub_one, runSub_one,
        step_normal0_stop fixed k vars d count B sol acc obj B ccons hcum
          hdesc,
        hflip, ht2]
      simp only [pairResult]
      rw [nodeRec_stop0 fixed d acc obj vars ⟨B, sol, count⟩ ccons hcum hdesc]

/-! ## The full root run of the single-threaded machine -/

theorem runSub_eq_of_terminate (fixed : Fixed) (k : ℕ) (s : SubState)
    (f g : ℕ)
    (hf : (runSub fixed k f s).flow = Flow.Terminate)
    (hg : (runSub fixed k g s).flow = Flow.Terminate) :
    runSub fixed k f s = runSub fixed k g s := by
  have h1 : runSub fixed k (max f g) s = runSub fixed k f s := by
    have hmf : max f g = f + (max f g - f) := by omega
    rw [hmf, runSub_add]
    exact runSub_frozen _ _ _ _ hf
  have h2 : runSub fixed k (max f g) s = runSub fixed k g s := by
    have hmg : max f g = g + (max f g - g) := by omega
    rw [hmg, runSub_add]
    exact runSub_frozen _ _ _ _ hg
  rw [← h1, h2]

theorem solve_run (fixed : Fixed) (hsz : sizedFixed fixed) :
    ∃ T, runSub fixed 0 T (initState fixed 0 0 ⊤)
      = ⟨(List.replicate fixed.num_vars 0).set 0 1, 0, Flow.Terminate,
          (pairResult fixed 0 (fixed.rhs.map (fun b => -b)) 0
            (List.replicate fixed.num_vars 0) ⟨⊤, [], 0⟩).count,
          (pairResult fixed 0 (fixed.rhs.map (fun b => -b)) 0
            (List.replicate fixed.num_vars 0) ⟨⊤, [], 0⟩).best,
          (pairResult fixed 0 (fixed.rhs.map (fun b => -b)) 0
            (List.replicate fixed.num_vars 0) ⟨⊤, [], 0⟩).solution,
          addRow (fixed.rhs.map (fun b => -b)) (fixed.constraints.getD 0 []),
          0 + fixed.coefficients.getD 0 0, 1,
          (pairResult fixed 0 (fixed.rhs.map (fun b => -b)) 0
            (List.replicate fixed.num_vars 0) ⟨⊤, [], 0⟩).best⟩ := by
  obtain ⟨t1, ht1⟩ := (machineSim fixed hsz fixed.cumulative.length).2 0 0
    (List.replicate fixed.num_vars 0) (fixed.rhs.map (fun b => -b)) 0 ⊤ [] 0
    (by omega) (le_refl 0) hsz.2.2.2.2 (by simp)
    (fun i _ => getD_replicate_zero _ _) (by simp)
  have hinit : initState fixed 0 0 ⊤
      = ⟨List.replicate fixed.num_vars 0, 0, Flow.Normal, 0, ⊤, [],
          fixed.rhs.map (fun b => -b), 0, 0, ⊤⟩ := rfl
  have hget : ((List.replicate fixed.num_vars 0).set 0 1).getD 0 0 = 1 := by
    apply getD_set_self
    have := hsz.2.2.2.2
    simp only [List.length_replicate]
    omega
  refine ⟨t1 + 1, ?_⟩
  rw [runSub_add, hinit, ht1, runSub_one,
    step_backtrack_term fixed 0 _ _ _ _ _ _ _ _ hget]

/-- The triple of results of a fresh root exploration by the recursive
reference solver. -/
theorem rootRAcc_STinv (fixed : Fixed) (hsz : sizedFixed fixed) :
    STinv fixed (pairResult fixed 0 (fixed.rhs.map (fun b => -b)) 0
      (List.replicate fixed.num_vars 0) ⟨⊤, [], 0⟩) := by
  have hst0 : STinv fixed ⟨⊤, [], 0⟩ := ⟨fun _ => rfl, fun h => absurd rfl h⟩
  have hlz : ∀ c, lhsSum fixed (List.replicate fixed.num_vars 0) c = 0 := by
    intro c
    apply Finset.sum_eq_zero
    intro v _
    rw [getD_replicate_zero]
    simp
  have hoz : objVal fixed (List.replicate fixed.num_vars 0) = 0 := by
    apply Finset.sum_eq_zero
    intro v _
    rw [getD_replicate_zero]
    simp
  have hacc0 : ∀ c < fixed.rhs.length,
      (fixed.rhs.map (fun b => -b)).getD c 0
        = lhsSum fixed (List.replicate fixed.num_vars 0) c
          - fixed.rhs.getD c 0 := by
    intro c hc
    rw [List.getD_eq_getElem _ _ (by simpa using hc), List.getElem_map,
      List.getD_eq_getElem _ _ hc, hlz]
    ring
  have hvb : ∀ i < fixed.num_vars,
      (List.replicate fixed.num_vars (0:ℕ)).getD i 0 ≤ 1 := by
    intro i _
    rw [getD_replicate_zero]
    omega
  have h1 := nodeRec_basic fixed hsz fixed.cumulative.length 0 0
    (fixed.rhs.map (fun b => -b)) 0 (List.replicate fixed.num_vars 0)
    ⟨⊤, [], 0⟩ (by omega) (by omega) hsz.2.2.2.2 (by simp) hvb
    (fun i _ => getD_replicate_zero _ _) (by simp) hacc0 hoz.symm hst0
  have h2 := nodeRec_basic fixed hsz fixed.cumulative.length 1 0
    (fixed.rhs.map (fun b => -b)) 0 (List.replicate fixed.num_vars 0)
    _ (by omega) (by omega) hsz.2.2.2.2 (by simp) hvb
    (fun i _ => getD_replicate_zero _ _) (by simp) hacc0 hoz.symm h1.1
  exact h2.1

theorem solve_components (b : Balas) (hsz : sizedFixed b.fixed) (fuel : ℕ)
    (hterm : (runSub b.fixed 0 fuel (initState b.fixed 0 0 ⊤)).flow
      = Flow.Terminate) :
    (b.solve fuel).best
      = (pairResult b.fixed 0 (b.fixed.rhs.map (fun v => -v)) 0
          (List.replicate b.fixed.num_vars 0) ⟨⊤, [], 0⟩).best ∧
    (b.solve fuel).solution
      = (pairResult b.fixed 0 (b.fixed.rhs.map (fun v => -v)) 0
          (List.replicate b.fixed.num_vars 0) ⟨⊤, [], 0⟩).solution ∧
    (b.solve fuel).count
      = (pairResult b.fixed 0 (b.fixed.rhs.map (fun v => -v)) 0
          (List.replicate b.fixed.num_vars 0) ⟨⊤, [], 0⟩).count := by
  obtain ⟨T, hT⟩ := solve_run b.fixed hsz
  have hTflow : (runSub b.fixed 0 T (initState b.fixed 0 0 ⊤)).flow
      = Flow.Terminate := by rw [hT]
  have heq := runSub_eq_of_terminate b.fixed 0 (initState b.fixed 0 0 ⊤)
    fuel T hterm hTflow
  simp only [Balas.solve, solve_subtree]
  rw [heq, hT]
  exact ⟨rfl, rfl, rfl⟩

theorem solve_recursively_components (b : Balas) (hsz : sizedFixed b.fixed)
    (hb : b.best = ⊤) (hsol : b.solution = []) (hcount : b.count = 0) :
    (b.solve_recursively).best
      = (pairResult b.fixed 0 (b.fixed.rhs.map (fun v => -v)) 0
          (List.replicate b.fixed.num_vars 0) ⟨⊤, [], 0⟩).best ∧
    (b.solve_recursively).solution
      = (pairResult b.fixed 0 (b.fixed.rhs.map (fun v => -v)) 0
          (List.replicate b.fixed.num_vars 0) ⟨⊤, [], 0⟩).solution ∧
    (b.solve_recursively).count
      = (pairResult b.fixed 0 (b.fixed.rhs.map (fun v => -v)) 0
          (List.replicate b.fixed.num_vars 0) ⟨⊤, [], 0⟩).count := by
  simp only [Balas.solve_recursively, Balas.record, pairResult]
  rw [hb, hsol, hcount, ← hsz.1]
  exact ⟨rfl, rfl, rfl⟩

/-! ## C2: a non-empty returned solution satisfies every constraint -/

/-- C2: whenever the solver (`solve`, the single-threaded engine) returns a
non-empty solution vector, that vector satisfies every constraint row:
`Σ_v constraints[v][c] · solution[v] ≥ rhs[c]` for all `c`. -/
theorem solve_solution_feasible (b : Balas) (hsz : sizedFixed b.fixed)
    (fuel : ℕ)
    (hterm : (runSub b.fixed 0 fuel (initState b.fixed 0 0 ⊤)).flow
      = Flow.Terminate)
    (hne : (b.solve fuel).solution ≠ []) :
    feasible b.fixed (b.solve fuel).solution := by
  obtain ⟨hbest, hsol, -⟩ := solve_components b hsz fuel hterm
  have hSTI := rootRAcc_STinv b.fixed hsz
  by_cases htop : (pairResult b.fixed 0 (b.fixed.rhs.map (fun v => -v)) 0
      (List.replicate b.fixed.num_vars 0) ⟨⊤, [], 0⟩).best = ⊤
  · rw [hsol, hSTI.1 htop] at hne
    exact absurd rfl hne
  · rw [hsol]
    exact (hSTI.2 htop).2.2.1

set_option maxRecDepth 80000

/-- C2 witness: on Scenario A `solve` terminates with the non-empty solution
`[0,1,1,0,0,0]`, and the theorem yields its feasibility. -/
theorem solve_solution_feasible_witness :
    (sizedFixed scenarioA.fixed ∧
      (runSub scenarioA.fixed 0 100 (initState scenarioA.fixed 0 0 ⊤)).flow
        = Flow.Terminate ∧
      (scenarioA.solve 100).solution ≠ []) ∧
    feasible scenarioA.fixed (scenarioA.solve 100).solution :=
  ⟨⟨by decide, by decide, by decide⟩,
    solve_solution_feasible scenarioA (by decide) 100 (by decide) (by decide)⟩

/-! ## C3: the reference solver versus the iterative engine -/

/-- C3 counterexample: on a problem whose optimum requires `x0 = 1`, the
recursive reference returns `best = 1`, while the parallel engine
(`solve_mt`, modelled at the schedule running worker `(1,0)` to completion
and then worker `(1,1)`; on this input worker `(1,0)` never publishes, so
every interleaving gives the same result) returns `best = 2` with the
infeasible solution vector `[0,1]`: the subtree worker never fathoms its own
root and drops the prefix bits from the solution it reports. -/
theorem parallel_engine_disagrees :
    sizedFixed mtExample.fixed ∧
    (runSub mtExample.fixed 0 40 (initState mtExample.fixed 0 0 ⊤)).flow
      = Flow.Terminate ∧
    (mtExample.solve_recursively).best = ((1:ℤ) : WithTop ℤ) ∧
    (mtExample.solve_mt_seq 40).best = ((2:ℤ) : WithTop ℤ) ∧
    (mtExample.solve_recursively).best ≠ (mtExample.solve_mt_seq 40).best ∧
    (mtExample.solve_mt_seq 40).solution = [0, 1] ∧
    ¬ feasible mtExample.fixed (mtExample.solve_mt_seq 40).solution ∧
    (runSub mtExample.fixed 1 40 (initState mtExample.fixed 1 0 ⊤)).flow
      = Flow.Terminate ∧
    (runSub mtExample.fixed 1 40 (initState mtExample.fixed 1 1
      (runSub mtExample.fixed 1 40 (initState mtExample.fixed 1 0 ⊤)).gb)).flow
      = Flow.Terminate := by
  have h1 := solve_recursively_components mtExample (by decide) rfl rfl rfl
  have h2 := solve_components mtExample (by decide) 40 (by decide)
  have hrec : (mtExample.solve_recursively).best = (mtExample.solve 40).best := by
    rw [h1.1, h2.1]
  refine ⟨by decide, by decide, ?_, by decide, ?_, by decide, by decide,
    by decide, by decide⟩
  · rw [hrec]; decide
  · rw [hrec]; decide

/-- C3 (amended): on any identical dimensionally coherent input with no
heuristic seed, the single-threaded recursive reference `solve_recursively`
and the single-threaded iterative engine `solve` produce the same `best`
(and in fact the same solution and node count), and each returned non-empty
solution is feasible.  (The parallel `solve_mt` may disagree; see the
counterexample.) -/
theorem solve_recursively_agrees_with_solve (b : Balas)
    (hsz : sizedFixed b.fixed) (hb : b.best = ⊤) (hsol : b.solution = [])
    (hcount : b.count = 0) (fuel : ℕ)
    (hterm : (runSub b.fixed 0 fuel (initState b.fixed 0 0 ⊤)).flow
      = Flow.Terminate) :
    (b.solve fuel).best = (b.solve_recursively).best ∧
    (b.solve fuel).solution = (b.solve_recursively).solution ∧
    (b.solve fuel).count = (b.solve_recursively).count ∧
    ((b.solve fuel).solution ≠ [] → feasible b.fixed (b.solve fuel).solution) ∧
    ((b.solve_recursively).solution ≠ []
      → feasible b.fixed (b.solve_recursively).solution) := by
  obtain ⟨h1b, h1s, h1c⟩ := solve_components b hsz fuel hterm
  obtain ⟨h2b, h2s, h2c⟩ := solve_recursively_components b hsz hb hsol hcount
  have hSTI := rootRAcc_STinv b.fixed hsz
  refine ⟨by rw [h1b, h2b], by rw [h1s, h2s], by rw [h1c, h2c], ?_, ?_⟩
  · intro hne
    rw [h1s] at hne ⊢
    by_cases htop : (pairResult b.fixed 0 (b.fixed.rhs.map (fun v => -v)) 0
        (List.replicate b.fixed.num_vars 0) ⟨⊤, [], 0⟩).best = ⊤
    · rw [hSTI.1 htop] at hne
      exact absurd rfl hne
    · exact (hSTI.2 htop).2.2.1
  · intro hne
    rw [h2s] at hne ⊢
    by_cases htop : (pairResult b.fixed 0 (b.fixed.rhs.map (fun v => -v)) 0
        (List.replicate b.fixed.num_vars 0) ⟨⊤, [], 0⟩).best = ⊤
    · rw [hSTI.1 htop] at hne
      exact absurd rfl hne
    · exact (hSTI.2 htop).2.2.1

/-- C3 witness: the amended agreement instantiated on Scenario A. -/
theorem solve_recursively_agrees_with_solve_witness :
    (sizedFixed scenarioA.fixed ∧ scenarioA.best = ⊤ ∧
      scenarioA.solution = [] ∧ scenarioA.count = 0 ∧
      (runSub scenarioA.fixed 0 100 (initState scenarioA.fixed 0 0 ⊤)).flow
        = Flow.Terminate) ∧
    ((scenarioA.solve 100).best = (scenarioA.solve_recursively).best ∧
      (scenarioA.solve 100).solution = (scenarioA.solve_recursively).solution ∧
      (scenarioA.solve 100).count = (scenarioA.solve_recursively).count ∧
      ((scenarioA.solve 100).solution ≠ []
        → feasible scenarioA.fixed (scenarioA.solve 100).solution) ∧
      ((scenarioA.solve_recursively).solution ≠ []
        → feasible scenarioA.fixed (scenarioA.solve_recursively).solution)) :=
  ⟨⟨by decide, rfl, rfl, rfl, by decide⟩,
    solve_recursively_agrees_with_solve scenarioA (by decide) rfl rfl rfl 100
      (by decide)⟩

/-! ## C9: termination and the infeasibility sentinel -/

/-- C9: for every dimensionally coherent problem (as produced by
construction-time validation: at least one variable, one constraint row per
variable, rows as long as `rhs`), the single-threaded solver's loop reaches
`Terminate` after finitely many iterations; and whenever no zero/one
assignment is feasible, the returned `best` is the sentinel `⊤` (positive
infinity, `T::max_value()`) and the returned solution vector is empty. -/
theorem solve_terminates_and_sentinel (b : Balas) (hsz : sizedFixed b.fixed) :
    (∃ fuel, (runSub b.fixed 0 fuel (initState b.fixed 0 0 ⊤)).flow
      = Flow.Terminate) ∧
    (∀ fuel, (runSub b.fixed 0 fuel (initState b.fixed 0 0 ⊤)).flow
        = Flow.Terminate →
      (∀ x ∈ allVecs b.fixed.num_vars, ¬ feasible b.fixed x) →
      (b.solve fuel).best = ⊤ ∧ (b.solve fuel).solution = []) := by
  constructor
  · obtain ⟨T, hT⟩ := solve_run b.fixed hsz
    exact ⟨T, by rw [hT]⟩
  · intro fuel hterm hnofeas
    obtain ⟨h1b, h1s, -⟩ := solve_components b hsz fuel hterm
    have hSTI := rootRAcc_STinv b.fixed hsz
    by_cases htop : (pairResult b.fixed 0 (b.fixed.rhs.map (fun v => -v)) 0
        (List.replicate b.fixed.num_vars 0) ⟨⊤, [], 0⟩).best = ⊤
    · exact ⟨by rw [h1b, htop], by rw [h1s, hSTI.1 htop]⟩
    · obtain ⟨hbv, hone, hfeas, hobj⟩ := hSTI.2 htop
      have hmem : (pairResult b.fixed 0 (b.fixed.rhs.map (fun v => -v)) 0
          (List.replicate b.fixed.num_vars 0) ⟨⊤, [], 0⟩).solution
            ∈ allVecs b.fixed.num_vars :=
        (mem_allVecs_iff _ _).mpr hbv
      exact absurd hfeas (hnofeas _ hmem)

/-- C9 witness: Scenario B (trivially infeasible: `x ≥ 2` with one binary
variable) terminates with `best = ⊤` and an empty solution. -/
theorem solve_terminates_and_sentinel_witness :
    sizedFixed scenarioB.fixed ∧
    ((∃ fuel, (runSub scenarioB.fixed 0 fuel
        (initState scenarioB.fixed 0 0 ⊤)).flow = Flow.Terminate) ∧
      (∀ fuel, (runSub scenarioB.fixed 0 fuel
          (initState scenarioB.fixed 0 0 ⊤)).flow = Flow.Terminate →
        (∀ x ∈ allVecs scenarioB.fixed.num_vars,
          ¬ feasible scenarioB.fixed x) →
        (scenarioB.solve fuel).best = ⊤ ∧
        (scenarioB.solve fuel).solution = [])) ∧
    (runSub scenarioB.fixed 0 20 (initState scenarioB.fixed 0 0 ⊤)).flow
      = Flow.Terminate ∧
    (∀ x ∈ allVecs scenarioB.fixed.num_vars, ¬ feasible scenarioB.fixed x) ∧
    (scenarioB.solve 20).best = ⊤ ∧ (scenarioB.solve 20).solution = [] :=
  ⟨by decide, solve_terminates_and_sentinel scenarioB (by decide),
    by decide, by decide, by decide, by decide⟩

/-! ## C1 and C6: the all-zeros optimum is missed (Scenario C) -/

/-- C1: the claimed optimality fails on the code.  Scenario C passes every
construction-time validation (nonnegative coefficients, rectangular binary
problem), the all-zeros assignment `[0,0]` is feasible with objective 0, yet
`solve` terminates and returns `best = 1 > 0`: the fathom test is evaluated
only on one-branch entries, so the solver never observes the feasibility of
the all-zeros assignment. -/
theorem optimality_violated_on_zero_optimum :
    sizedFixed scenarioC.fixed ∧
    feasible scenarioC.fixed [0, 0] ∧
    objVal scenarioC.fixed [0, 0] = 0 ∧
    (runSub scenarioC.fixed 0 40 (initState scenarioC.fixed 0 0 ⊤)).flow
      = Flow.Terminate ∧
    (scenarioC.solve 40).best = ((1 : ℤ) : WithTop ℤ) ∧
    ¬ (scenarioC.solve 40).best
        ≤ ((objVal scenarioC.fixed [0, 0] : ℤ) : WithTop ℤ) := by
  refine ⟨by decide, by decide, by decide, by decide, by decide, by decide⟩

/-- C6: on Scenario C the spec expects `best = 0` with `solution = [0,0]`,
but `solve` terminates with `best = 1` and `solution = [0,1]` (and the
recursive reference does the same): the feasible all-zeros optimum is never
fathomed. -/
theorem scenarioC_misses_allzeros :
    sizedFixed scenarioC.fixed ∧
    (runSub scenarioC.fixed 0 40 (initState scenarioC.fixed 0 0 ⊤)).flow
      = Flow.Terminate ∧
    (scenarioC.solve 40).best = ((1 : ℤ) : WithTop ℤ) ∧
    (scenarioC.solve 40).solution = [0, 1] ∧
    ¬ (scenarioC.solve 40).best = ((0 : ℤ) : WithTop ℤ) ∧
    ¬ (scenarioC.solve 40).solution = [0, 0] ∧
    feasible scenarioC.fixed [0, 0] ∧ objVal scenarioC.fixed [0, 0] = 0 := by
  refine ⟨by decide, by decide, by decide, by decide, by decide, by decide,
    by decide, by decide⟩

/-! ## C5: the heuristic seed is ignored by `solve` -/

/-- C5: the code's `solve` initializes the shared bound to `T::max_value()`
unconditionally, so writing a heuristic upper bound into `best` before
calling `solve` has no effect whatsoever (first conjunct, an equality of
full solver handles).  Had `best_global` been seeded as the spec describes
(`solve_seeded_spec`), the search on Scenario A seeded with the valid upper
bound 12 would examine 16 nodes instead of 18 and still return the optimum
11. -/
theorem solve_ignores_best_seed :
    (∀ (b : Balas) (v : WithTop ℤ) (fuel : ℕ),
      ({ b with best := v } : Balas).solve fuel = b.solve fuel) ∧
    ({ scenarioA with best := ((12:ℤ) : WithTop ℤ) }.solve 100).count = 18 ∧
    (scenarioA.solve 100).count = 18 ∧
    ({ scenarioA with best := ((12:ℤ) : WithTop ℤ) }.solve_seeded_spec
      100).count = 16 ∧
    ({ scenarioA with best := ((12:ℤ) : WithTop ℤ) }.solve_seeded_spec
      100).best = ((11:ℤ) : WithTop ℤ) ∧
    ({ scenarioA with best := ((12:ℤ) : WithTop ℤ) }.solve 100).best
      = ((11:ℤ) : WithTop ℤ) ∧
    (runSub scenarioA.fixed 0 100 (initState scenarioA.fixed 0 0 ⊤)).flow
      = Flow.Terminate ∧
    (runSub scenarioA.fixed 0 100 (initState scenarioA.fixed 0 0
      ((12:ℤ) : WithTop ℤ))).flow = Flow.Terminate := by
  refine ⟨fun b v fuel => rfl, by decide, by decide, by decide, by decide,
    by decide, by decide, by decide⟩

/-! ## C7: the prefix decoding counterexample and witness -/

/-- C7 counterexample: with `k = 2`, `p = 1` and coefficients `[1, 2]`, the
claimed least-significant-first decoding (`init_subtree_lsb`, bit 0 = depth
0) would replay branch 1 at depth 0 and give objective 1; the code's
`init_subtree` instead reads bit `k-1-i` at depth `i` and gives objective 2,
so the claim fails at this input. -/
theorem init_subtree_lsb_counterexample :
    (init_subtree 2 1 bitFixed).2 = 2 ∧
    (init_subtree_lsb 2 1 bitFixed).2 = 1 ∧
    (init_subtree 2 1 bitFixed).2 ≠ (init_subtree_lsb 2 1 bitFixed).2 := by
  refine ⟨by decide, by decide, by decide⟩

/-- C7 witness: the most-significant-first characterization instantiated at
`k = 2`, `p = 2` on `bitFixed`. -/
theorem init_subtree_spec_witness :
    (bitFixed.rhs.length = 1 ∧ 2 ≤ bitFixed.constraints.length ∧
      (∀ row ∈ bitFixed.constraints, row.length = 1) ∧ 2 < 2 ^ 2) ∧
    ((init_subtree 2 2 bitFixed).2
      = (∑ i ∈ Finset.range 2,
          if 2 >>> (2 - i - 1) &&& 1 = 1 then bitFixed.coefficients.getD i 0
          else 0) ∧
    (init_subtree 2 2 bitFixed).1.length = 1 ∧
    ∀ c < 1, (init_subtree 2 2 bitFixed).1.getD c 0
      = -(bitFixed.rhs.getD c 0) + ∑ i ∈ Finset.range 2,
          (if 2 >>> (2 - i - 1) &&& 1 = 1 then colEntry bitFixed i c else 0)) :=
  ⟨⟨by decide, by decide, by decide, by decide⟩,
    init_subtree_spec bitFixed 2 2 1 (by decide) (by decide) (by decide)
      (by decide)⟩

/-! ## C8 witness -/

/-- C8 witness: the cumulative characterization instantiated on the
two-variable problem `bitFixed`. -/
theorem make_cumulative_spec_witness :
    ((∀ row ∈ bitFixed.constraints, row.length = 1) ∧
      bitFixed.constraints ≠ []) ∧
    ((make_cumulative bitFixed.constraints).length
        = bitFixed.constraints.length - 1 ∧
    (∀ row ∈ make_cumulative bitFixed.constraints, row.length = 1) ∧
    (∀ v, v < bitFixed.constraints.length - 1 → ∀ c < 1,
      ((make_cumulative bitFixed.constraints).getD v []).getD c 0
        = ∑ u ∈ Finset.Ico (v + 1) bitFixed.constraints.length,
            posPart ((bitFixed.constraints.getD u []).getD c 0)) ∧
    (∀ v, v + 1 < bitFixed.constraints.length - 1 → ∀ c < 1,
      ((make_cumulative bitFixed.constraints).getD v []).getD c 0
        = ((make_cumulative bitFixed.constraints).getD (v + 1) []).getD c 0
          + posPart ((bitFixed.constraints.getD (v + 1) []).getD c 0))) :=
  ⟨⟨by decide, by decide⟩,
    make_cumulative_spec bitFixed.constraints 1 (by decide) (by decide)⟩

end BalasSpec
